import Mathlib

/-!
A shallow embedding of the `activity-analyser` training-load engine
(`src/measurements.rs`, `src/metrics.rs`, `src/peak.rs`, `src/athlete.rs`,
`src/daily_stats.rs`) together with theorems checking the specification's
claims about it.

Modelling conventions:
* Rust `i64` values (`Power`, `HeartRate`, `TSS`) are modelled as `ℤ`;
  `i64` division (which truncates toward zero) is `Int.tdiv`.
* Rust `f64` values are modelled as exact arithmetic: `ℚ` where the code
  only adds, subtracts and compares (`Altitude`, `Work`), and `ℝ` where the
  code calls `exp` (`CTL`/`ATL`/`TSB`).
* `chrono::NaiveDate` is modelled as `ℤ` (a day number); adding
  `Days::new(n)` is integer addition and `(a - b).num_days()` is `a - b`.
* Fallible Rust values (`Option`) are Lean `Option`s.
-/

namespace ActivityAnalyser

/-! ## measurements.rs -/

/-- `Average::average` for the integer-valued measurement wrappers.
`impl Average for i64`, `impl Average for Power` and
`impl Average for HeartRate` (measurements.rs) all have this same body:
the truncated `i64` mean of the elements, `None` on an empty input. -/
def intAverage (elems : List ℤ) : Option ℤ :=
  if ¬ elems.isEmpty then some (Int.tdiv elems.sum elems.length) else none

/-! ## metrics.rs -/

/-- A day's accumulated Training Stress Score: `DailyTSS(NaiveDate, TSS)`. -/
structure DailyTSS where
  date : ℤ
  tss : ℤ
deriving DecidableEq

/-- Truncation of a rational to an integer, toward zero: models Rust's
`as i64` cast applied to an `f64` value. -/
def ratTrunc (q : ℚ) : ℤ :=
  Int.tdiv q.num q.den

/-- `IF::calculate` (metrics.rs): `normalized_power as f64 / ftp as f64`,
with the `f64` arithmetic modelled exactly over `ℚ`. -/
def IF.calculate (ftp np : ℤ) : ℚ :=
  (np : ℚ) / (ftp : ℚ)

/-- `TSS::calculate` (metrics.rs): power-based Training Stress Score.
`duration` is `duration.num_seconds()`; the `f64` arithmetic is modelled
exactly over `ℚ` and the final `as i64` cast is truncation toward zero. -/
def TSS.calculate (ftp : ℤ) (duration : ℤ) (np : ℤ) : ℤ :=
  ratTrunc ((((duration : ℚ) * (np : ℚ) * IF.calculate ftp np) / ((ftp : ℚ) * 3600)) * 100)

/-- The spec's power-based TSS formula, written from the spec's words:
`IF = NP/FTP`; `TSS = d · NP · IF / (FTP · 3600) · 100`, truncated to
integer. -/
def specPowerTSS (ftp : ℤ) (d : ℤ) (np : ℤ) : ℤ :=
  ratTrunc ((d : ℚ) * (np : ℚ) * ((np : ℚ) / (ftp : ℚ)) / ((ftp : ℚ) * 3600) * 100)

/-- The ten heart-rate zone cut points of `TSS::calculate_hr_tss`
(metrics.rs): `fthr * p / 100` in truncating `i64` arithmetic for
`p ∈ {73,77,81,85,89,93}`, then `fthr` itself, then `p ∈ {103,106}`. -/
def hrZoneCuts (fthr : ℤ) : ℤ × ℤ × ℤ × ℤ × ℤ × ℤ × ℤ × ℤ × ℤ :=
  (Int.tdiv (fthr * 73) 100,
   Int.tdiv (fthr * 77) 100,
   Int.tdiv (fthr * 81) 100,
   Int.tdiv (fthr * 85) 100,
   Int.tdiv (fthr * 89) 100,
   Int.tdiv (fthr * 93) 100,
   fthr,
   Int.tdiv (fthr * 103) 100,
   Int.tdiv (fthr * 106) 100)

/-- One step of the `fold` in `TSS::calculate_hr_tss`: bump the count of
the zone the sample `hr` falls into. -/
def hrZoneStep (fthr : ℤ)
    (acc : ℤ × ℤ × ℤ × ℤ × ℤ × ℤ × ℤ × ℤ × ℤ × ℤ) (hr : ℤ) :
    ℤ × ℤ × ℤ × ℤ × ℤ × ℤ × ℤ × ℤ × ℤ × ℤ :=
  let zones := hrZoneCuts fthr
  let (c0, c1, c2, c3, c4, c5, c6, c7, c8, c9) := acc
  if hr < zones.1 then (c0 + 1, c1, c2, c3, c4, c5, c6, c7, c8, c9)
  else if hr < zones.2.1 then (c0, c1 + 1, c2, c3, c4, c5, c6, c7, c8, c9)
  else if hr < zones.2.2.1 then (c0, c1, c2 + 1, c3, c4, c5, c6, c7, c8, c9)
  else if hr < zones.2.2.2.1 then (c0, c1, c2, c3 + 1, c4, c5, c6, c7, c8, c9)
  else if hr < zones.2.2.2.2.1 then (c0, c1, c2, c3, c4 + 1, c5, c6, c7, c8, c9)
  else if hr < zones.2.2.2.2.2.1 then (c0, c1, c2, c3, c4, c5 + 1, c6, c7, c8, c9)
  else if hr < zones.2.2.2.2.2.2.1 then (c0, c1, c2, c3, c4, c5, c6 + 1, c7, c8, c9)
  else if hr < zones.2.2.2.2.2.2.2.1 then (c0, c1, c2, c3, c4, c5, c6, c7 + 1, c8, c9)
  else if hr < zones.2.2.2.2.2.2.2.2 then (c0, c1, c2, c3, c4, c5, c6, c7, c8 + 1, c9)
  else (c0, c1, c2, c3, c4, c5, c6, c7, c8, c9 + 1)

/-- `TSS::calculate_hr_tss` (metrics.rs): count the samples falling in each
of ten heart-rate zones, weight the counts, and divide by 3600 in
truncating `i64` arithmetic. -/
def TSS.calculate_hr_tss (fthr : ℤ) (heartRateData : List ℤ) : ℤ :=
  let zonesCount := heartRateData.foldl (hrZoneStep fthr) (0, 0, 0, 0, 0, 0, 0, 0, 0, 0)
  let (c0, c1, c2, c3, c4, c5, c6, c7, c8, c9) := zonesCount
  Int.tdiv
    (c0 * 20 + c1 * 30 + c2 * 40 + c3 * 50 + c4 * 60 + c5 * 75 +
      c6 * 100 + c7 * 105 + c8 * 110 + c9 * 120) 3600

/-- The zone index (`0`–`9`) a heart-rate sample is classified into, read
off the same cut points the code uses. -/
def hrZoneIndex (fthr hr : ℤ) : ℕ :=
  let zones := hrZoneCuts fthr
  if hr < zones.1 then 0
  else if hr < zones.2.1 then 1
  else if hr < zones.2.2.1 then 2
  else if hr < zones.2.2.2.1 then 3
  else if hr < zones.2.2.2.2.1 then 4
  else if hr < zones.2.2.2.2.2.1 then 5
  else if hr < zones.2.2.2.2.2.2.1 then 6
  else if hr < zones.2.2.2.2.2.2.2.1 then 7
  else if hr < zones.2.2.2.2.2.2.2.2 then 8
  else 9

/-- The fixed per-second weight of each of the ten heart-rate zones, as in
the spec: `{20,30,40,50,60,75,100,105,110,120}`. -/
def hrZoneWeight : ℕ → ℤ
  | 0 => 20
  | 1 => 30
  | 2 => 40
  | 3 => 50
  | 4 => 60
  | 5 => 75
  | 6 => 100
  | 7 => 105
  | 8 => 110
  | _ => 120

/-- The spec's hrTSS, written from the spec's words: classify every sample
into one of ten ascending zones, sum `count(zone) × weight(zone)` over the
ten zones, divide by 3600 and truncate to integer. -/
def specHrTSS (fthr : ℤ) (heartRateData : List ℤ) : ℤ :=
  Int.tdiv
    (∑ z ∈ Finset.range 10,
      ((heartRateData.filter (fun hr => hrZoneIndex fthr hr = z)).length : ℤ) *
        hrZoneWeight z) 3600

/-- The contiguous length-`size` windows of a list, stride 1: models
`slice::windows(size)`, which yields no windows when `size` exceeds the
length (`size = 0`, which would panic in Rust, yields `[]` here and is
never used). -/
def windowsN (size : ℕ) (l : List α) : List (List α) :=
  if size ≠ 0 ∧ size ≤ l.length then
    (List.range (l.length - size + 1)).map (fun i => (l.drop i).take size)
  else []

/-- `rolling_averages` (metrics.rs) at the integer measurement types:
the average of every contiguous window of the given size.  The `unwrap`
on each window's average is modelled by `Option.getD 0`; it is never hit,
because every window produced by `windowsN` is non-empty. -/
def rolling_averages (data : List ℤ) (size : ℕ) : List ℤ :=
  (windowsN size data).map (fun w => (intAverage w).getD 0)

/-- Models `(avg as f64).powf(0.25) as i64` in `calc_normalized_power`:
the argument is a mean of fourth powers, hence non-negative, and `powf`
is exactly rounded on the fourth powers that occur, so the cast yields
`⌊avg^(1/4)⌋`, here computed as the number of positive integers whose
fourth power is at most `avg`. -/
def intFourthRoot (n : ℤ) : ℤ :=
  (((Finset.range n.toNat).filter (fun k => (k + 1) ^ 4 ≤ n.toNat)).card : ℤ)

/-- `calc_normalized_power` (metrics.rs): the plain average below 30
samples, otherwise the fourth root of the mean fourth power of the
30-sample rolling averages. -/
def calc_normalized_power (powerData : List ℤ) : Option ℤ :=
  if powerData.length < 30 then intAverage powerData
  else
    (intAverage ((rolling_averages powerData 30).map (fun x => x ^ 4))).map
      intFourthRoot

/-- The state of the `fold` in `calc_altitude_changes`:
`(acc_gain, acc_loss, prev_alt)`. -/
def altitudeStep (acc : Option ℚ × Option ℚ × Option ℚ) (nextAlt : ℚ) :
    Option ℚ × Option ℚ × Option ℚ :=
  match acc with
  | (accGain, accLoss, none) => (accGain, accLoss, some nextAlt)
  | (accGain, accLoss, some prevAlt) =>
    if prevAlt < nextAlt then
      let curGain := nextAlt - prevAlt
      match accGain with
      | none => (some curGain, accLoss, some nextAlt)
      | some g => (some (g + curGain), accLoss, some nextAlt)
    else
      let curLoss := prevAlt - nextAlt
      match accLoss with
      | none => (accGain, some curLoss, some nextAlt)
      | some l => (accGain, some (l + curLoss), some nextAlt)

/-- `calc_altitude_changes` (metrics.rs): total altitude gain and loss of
a trace, each `none` when its accumulator was never initialised. -/
def calc_altitude_changes (altitudeData : List ℚ) : Option ℚ × Option ℚ :=
  let r := altitudeData.foldl altitudeStep (none, none, none)
  (r.1, r.2.1)

/-! ## peak.rs

`Peak<T>` is instantiated at the integer measurement types (`Power`,
`HeartRate`), whose `Average` impls are `intAverage`; a measurement record
is a `(value, timestamp)` pair and `DateTime<Local>` is modelled as `ℤ`. -/

/-- `Peak` (peak.rs): a value, the `[start, end]` timestamps of its
window, and the requested duration in seconds. -/
structure Peak where
  value : ℤ
  startTime : ℤ
  endTime : ℤ
  duration : ℤ
deriving DecidableEq

/-- `get_peak` (peak.rs): the average of a window together with the
window's first and last timestamps.  The Rust indexing `measurements[0]` /
`measurements[len - 1]` only runs after `average` returned `Some`, i.e. on
a non-empty window, where it equals `headD` / `getLastD`. -/
def get_peak (measurements : List (ℤ × ℤ)) (duration : ℤ) : Option Peak :=
  (intAverage (measurements.map (fun m => m.1))).map (fun avg =>
    { value := avg
      startTime := (measurements.headD (0, 0)).2
      endTime := (measurements.getLastD (0, 0)).2
      duration := duration })

/-- `Ord for Peak` combined with `Iterator::max` (peak.rs): `max` keeps
the *later* element when the comparison (on `value` only) is not
`Greater`. -/
def peakMaxStep (acc : Option Peak) (p : Peak) : Option Peak :=
  match acc with
  | none => some p
  | some a => if a.value > p.value then some a else some p

/-- `Iterator::max` over peaks: fold `peakMaxStep` over the list;
on ties the last maximal element wins, as documented for `Iterator::max`. -/
def peaksMax (l : List Peak) : Option Peak :=
  l.foldl peakMaxStep none

/-- `Peak::from_measurement_records` (peak.rs): slide a window of
`duration.num_seconds()` samples across the records, take each window's
peak, and return the maximum. -/
def Peak.from_measurement_records (measurements : List (ℤ × ℤ)) (duration : ℤ) :
    Option Peak :=
  peaksMax ((windowsN duration.toNat measurements).filterMap
    (fun w => get_peak w duration))

/-! ## athlete.rs -/

/-- `MeasurementRecord` (athlete.rs): a dated threshold measurement.
`Power`/`HeartRate` are `i64` (modelled `ℤ`), `Weight` is `f64`
(modelled `ℚ`). -/
inductive MeasurementRecord where
  | FTP : ℤ → MeasurementRecord
  | FTHr : ℤ → MeasurementRecord
  | Weight : ℚ → MeasurementRecord
deriving DecidableEq

/-- `MeasurementRecord::get_ftp` (athlete.rs). -/
def MeasurementRecord.get_ftp : MeasurementRecord → Option ℤ
  | .FTP power => some power
  | _ => none

/-- `MeasurementRecord::get_fthr` (athlete.rs). -/
def MeasurementRecord.get_fthr : MeasurementRecord → Option ℤ
  | .FTHr hr => some hr
  | _ => none

/-- `MeasurementRecords::new` (athlete.rs): sort the records by date.
Rust's `sort_by` is a stable sort, modelled by insertion sort (also
stable). -/
def MeasurementRecords.new (measurements : List (ℤ × MeasurementRecord)) :
    List (ℤ × MeasurementRecord) :=
  measurements.insertionSort (fun a b => a.1 ≤ b.1)

/-- `MeasurementRecords::get_actual` (athlete.rs): keep the records on
which `getter` succeeds, take while the date is at most the query date,
and return the value of the last one. -/
def MeasurementRecords.get_actual (measurements : List (ℤ × MeasurementRecord))
    (date : ℤ) (getter : MeasurementRecord → Option α) : Option α :=
  (((measurements.filterMap (fun dm => (getter dm.2).map (fun v => (dm.1, v)))).takeWhile
      (fun dv => dv.1 ≤ date)).getLast?).map (fun dv => dv.2)

/-- `MeasurementRecords::get_actual_ftp` (athlete.rs). -/
def MeasurementRecords.get_actual_ftp (measurements : List (ℤ × MeasurementRecord))
    (date : ℤ) : Option ℤ :=
  MeasurementRecords.get_actual measurements date MeasurementRecord.get_ftp

/-- `MeasurementRecords::get_actual_fthr` (athlete.rs). -/
def MeasurementRecords.get_actual_fthr (measurements : List (ℤ × MeasurementRecord))
    (date : ℤ) : Option ℤ :=
  MeasurementRecords.get_actual measurements date MeasurementRecord.get_fthr

/-! ## daily_stats.rs -/

/-- `DailyStats` (daily_stats.rs): one day's performance-management
metrics.  `CTL`/`ATL`/`TSB` are `f64`, modelled as `ℝ` because their
recurrence uses `exp`. -/
structure DailyStats where
  date : ℤ
  tss : ℤ
  ctl : ℝ
  atl : ℝ
  tsb : ℝ

/-- `calc_training_load` (metrics.rs): one step of the exponentially
weighted training-load recurrence, with the `f64` arithmetic modelled
over `ℝ`. -/
noncomputable def calc_training_load (decayConst impactConst : ℤ)
    (yesterdaysTl : ℝ) (dailyTss : DailyTSS) : ℝ :=
  let decayFactor := Real.exp (-1 / (decayConst : ℝ))
  let impactFactor := 1 - Real.exp (-1 / (impactConst : ℝ))
  yesterdaysTl * decayFactor + (dailyTss.tss : ℝ) * impactFactor

/-- `CTL::calculate` (metrics.rs): 42-day constants. -/
noncomputable def CTL.calculate (yesterdaysTl : ℝ) (dailyTss : DailyTSS) : ℝ :=
  calc_training_load 42 42 yesterdaysTl dailyTss

/-- `ATL::calculate` (metrics.rs): 7-day constants. -/
noncomputable def ATL.calculate (yesterdaysTl : ℝ) (dailyTss : DailyTSS) : ℝ :=
  calc_training_load 7 7 yesterdaysTl dailyTss

/-- `TSB::calculate` (metrics.rs): `ctl - atl`. -/
def TSB.calculate (ctl atl : ℝ) : ℝ :=
  ctl - atl

/-- `DailyStats::calc_next` (daily_stats.rs): the next day's metrics from
yesterday's metrics and the day's accumulated TSS. -/
noncomputable def DailyStats.calc_next (yesterdaysStats : DailyStats)
    (dailyTss : DailyTSS) : DailyStats :=
  let ctl := CTL.calculate yesterdaysStats.ctl dailyTss
  let atl := ATL.calculate yesterdaysStats.atl dailyTss
  { date := dailyTss.date
    tss := dailyTss.tss
    ctl := ctl
    atl := atl
    tsb := TSB.calculate ctl atl }

/-- The element stream consumed by `DailyStats::calc_rolling`: the sorted
daily TSS entries chained with `ending_days`, the synthetic zero-TSS days
`last_day + 1, last_day + 2, …`. -/
def rollingStream (sortedDailyTss : List DailyTSS) (i : ℕ) : DailyTSS :=
  if h : i < sortedDailyTss.length then sortedDailyTss.get ⟨i, h⟩
  else
    { date := (sortedDailyTss.getLastD ⟨0, 0⟩).date + (i - sortedDailyTss.length) + 1
      tss := 0 }

/-- The starting state of `DailyStats::calc_rolling`: the checkpoint when
supplied, else the synthetic zero state dated the day before the first
entry. -/
noncomputable def rollingInit (sortedDailyTss : List DailyTSS)
    (lastKnownStats : Option DailyStats) : DailyStats :=
  match lastKnownStats with
  | some stats => stats
  | none =>
    { date := (sortedDailyTss.headD ⟨0, 0⟩).date - 1
      tss := 0
      ctl := 0
      atl := 0
      tsb := 0 }

/-- The state after consuming stream elements `0, …, i` in the `scan` of
`DailyStats::calc_rolling`:  `rollingState init s i` is the `DailyStats`
the scan produces for element `i`. -/
noncomputable def rollingState (init : DailyStats) (s : ℕ → DailyTSS) : ℕ → DailyStats
  | 0 => DailyStats.calc_next init (s 0)
  | i + 1 => DailyStats.calc_next (rollingState init s i) (s (i + 1))

/-- The `scan` keeps element `i` exactly when
`i < length + 1 || ctl >= 0.45 || atl >= 0.45 || tsb >= 0.45`
(daily_stats.rs, `calc_rolling`). -/
def rollingKeep (length : ℕ) (i : ℕ) (stats : DailyStats) : Prop :=
  i < length + 1 ∨ stats.ctl ≥ 0.45 ∨ stats.atl ≥ 0.45 ∨ stats.tsb ≥ 0.45

/-- `DailyStats::calc_rolling` (daily_stats.rs), as an input/output
relation: the output is empty when the input is, and otherwise consists of
the scanned states `0, …, m`, where every kept index satisfies
`rollingKeep` and the scan stops at the first index `m + 1` that does not.
The relation holds of exactly the list `calc_rolling` returns. -/
noncomputable def calcRollingRel (sortedDailyTss : List DailyTSS)
    (lastKnownStats : Option DailyStats) (out : List DailyStats) : Prop :=
  if sortedDailyTss.isEmpty then out = []
  else
    ∃ m : ℕ,
      out = (List.range (m + 1)).map
        (rollingState (rollingInit sortedDailyTss lastKnownStats)
          (rollingStream sortedDailyTss)) ∧
      (∀ i ≤ m,
        rollingKeep sortedDailyTss.length i
          (rollingState (rollingInit sortedDailyTss lastKnownStats)
            (rollingStream sortedDailyTss) i)) ∧
      ¬ rollingKeep sortedDailyTss.length (m + 1)
          (rollingState (rollingInit sortedDailyTss lastKnownStats)
            (rollingStream sortedDailyTss) (m + 1))

/-- The `BTreeMap<NaiveDate, TSS>` of `SortedDailyTSS::from_unsorted`,
modelled as an association list sorted strictly by key.  Inserting mirrors
`entry(date).and_modify(|t| *t += tss).or_insert(tss)`. -/
def mapInsertWith (date tss : ℤ) : List (ℤ × ℤ) → List (ℤ × ℤ)
  | [] => [(date, tss)]
  | (d, t) :: rest =>
    if date < d then (date, tss) :: (d, t) :: rest
    else if date = d then (d, t + tss) :: rest
    else (d, t) :: mapInsertWith date tss rest

/-- The initial `BTreeMap` of `SortedDailyTSS::from_unsorted`: when a
checkpoint exists and the input is non-empty, zero-TSS entries for the
days strictly between the checkpoint's date and the date of the *first*
(still unsorted) input entry. -/
def initMap (unsorted : List DailyTSS) (lastKnownStats : Option DailyStats) :
    List (ℤ × ℤ) :=
  match lastKnownStats with
  | none => []
  | some stats =>
    match unsorted.head? with
    | none => []
    | some first =>
      let days := first.date - stats.date
      (List.range (days - 1).toNat).map
        (fun i : ℕ => (stats.date + ((i : ℤ) + 1), (0 : ℤ)))

/-- One step of the gap-filling `fold` in `SortedDailyTSS::from_unsorted`:
push zero-TSS days for the gap between the accumulator's last entry and
the next entry, then push the entry. -/
def gapFillStep (acc : List DailyTSS) (dailyTss : DailyTSS) : List DailyTSS :=
  match acc.getLast? with
  | some last =>
    let diff := (dailyTss.date - last.date).toNat
    (acc ++ (List.range (diff - 1)).map
      (fun i : ℕ => { date := last.date + ((i : ℤ) + 1), tss := 0 })) ++ [dailyTss]
  | none => acc ++ [dailyTss]

/-- The `skip_while` of `SortedDailyTSS::from_unsorted`: drop the leading
entries dated at or before the checkpoint's date, when a checkpoint
exists. -/
def skipOld (lastKnownStats : Option DailyStats) (l : List DailyTSS) : List DailyTSS :=
  l.dropWhile (fun dt =>
    match lastKnownStats with
    | some dailyStats => decide (dt.date ≤ dailyStats.date)
    | none => false)

/-- `SortedDailyTSS::from_unsorted` (daily_stats.rs): accumulate the raw
entries into the date-sorted map, fill gaps with zero-TSS days, and drop
everything at or before the checkpoint. -/
def SortedDailyTSS.from_unsorted (unsorted : List DailyTSS)
    (lastKnownStats : Option DailyStats) : List DailyTSS :=
  skipOld lastKnownStats
    (((unsorted.foldl (fun acc dt => mapInsertWith dt.date dt.tss acc)
          (initMap unsorted lastKnownStats)).map
        (fun p => DailyTSS.mk p.1 p.2)).foldl gapFillStep [])

/-! ## Auxiliary definitions used only to state and prove the theorems -/

/-- How many samples of `data` are classified into zone `z`. -/
def countZone (fthr : ℤ) (z : ℕ) (data : List ℤ) : ℕ :=
  (data.filter (fun hr => hrZoneIndex fthr hr = z)).length

/-- The weighted numerator `Σ count(zone) · weight(zone)` of a zone-count
tuple. -/
def hrNumer (c : ℤ × ℤ × ℤ × ℤ × ℤ × ℤ × ℤ × ℤ × ℤ × ℤ) : ℤ :=
  c.1 * 20 + c.2.1 * 30 + c.2.2.1 * 40 + c.2.2.2.1 * 50 + c.2.2.2.2.1 * 60 +
    c.2.2.2.2.2.1 * 75 + c.2.2.2.2.2.2.1 * 100 + c.2.2.2.2.2.2.2.1 * 105 +
    c.2.2.2.2.2.2.2.2.1 * 110 + c.2.2.2.2.2.2.2.2.2 * 120

/-- Recursive form of the altitude fold, walking consecutive pairs while
carrying `(gain, loss, previous altitude)`. -/
def altWalk (gain loss : Option ℚ) (prev : ℚ) : List ℚ → Option ℚ × Option ℚ × ℚ
  | [] => (gain, loss, prev)
  | next :: rest =>
    if prev < next then
      altWalk
        (some (match gain with
          | none => next - prev
          | some g => g + (next - prev))) loss next rest
    else
      altWalk gain
        (some (match loss with
          | none => prev - next
          | some l => l + (prev - next))) next rest

/-- The total TSS the raw input records on a given date. -/
def sumTSSAt (l : List DailyTSS) (d : ℤ) : ℤ :=
  ((l.filter (fun dt => dt.date = d)).map (fun dt => dt.tss)).sum

/-- The average of a window's measurement values. -/
def windowAvg (w : List (ℤ × ℤ)) : Option ℤ :=
  intAverage (w.map (fun m => m.1))

/-- `p` has the greatest value among the peaks of `l`. -/
def isMaxOf (l : List Peak) (p : Peak) : Prop :=
  ∀ q ∈ l, q.value ≤ p.value

instance (l : List Peak) (p : Peak) : Decidable (isMaxOf l p) := by
  unfold isMaxOf
  infer_instance

instance : IsTotal (ℤ × MeasurementRecord) (fun a b => a.1 ≤ b.1) :=
  ⟨fun a b => le_total a.1 b.1⟩

instance : IsTrans (ℤ × MeasurementRecord) (fun a b => a.1 ≤ b.1) :=
  ⟨fun _ _ _ h1 h2 => le_trans h1 h2⟩

instance : IsTrans DailyTSS (fun a b => a.date < b.date) :=
  ⟨fun _ _ _ h1 h2 => lt_trans h1 h2⟩

/-- The total value the association list records under key `x`. -/
def assocSum (m : List (ℤ × ℤ)) (x : ℤ) : ℤ :=
  ((m.filter (fun p => decide (p.1 = x))).map (fun p => p.2)).sum

/-- `n` zero-TSS filler days starting the day after `start`. -/
def fillDays (start : ℤ) : ℕ → List DailyTSS
  | 0 => []
  | n + 1 => { date := start + 1, tss := 0 } :: fillDays (start + 1) n

/-- Recursive form of the gap-filling fold: walk the sorted entries,
emitting the filler days between consecutive entries followed by the
entry itself. -/
def gfRec (prev : DailyTSS) : List DailyTSS → List DailyTSS
  | [] => []
  | d :: rest =>
    (fillDays prev.date ((d.date - prev.date).toNat - 1) ++ [d]) ++ gfRec d rest

/-! ## Theorems -/

/-- Casting an integer to `ℚ` and truncating gives it back. -/
theorem ratTrunc_intCast (n : ℤ) : ratTrunc (n : ℚ) = n := by
  simp [ratTrunc, Rat.num_intCast, Rat.den_intCast]

/-- C1: for every threshold power `FTP > 0`, duration `d` (seconds) and
Normalized Power `NP`, the power-based TSS is
`(d · NP · (NP/FTP)) / (FTP · 3600) · 100` truncated to integer, and one
hour at `NP = FTP` yields TSS exactly 100. -/
theorem tss_calculate_correct (ftp d np : ℤ) (hftp : 0 < ftp) :
    TSS.calculate ftp d np = specPowerTSS ftp d np ∧
    TSS.calculate ftp 3600 ftp = 100 := by
  have hne : (ftp : ℚ) ≠ 0 := by
    exact_mod_cast hftp.ne'
  refine ⟨rfl, ?_⟩
  unfold TSS.calculate IF.calculate
  have h100 : ((3600 : ℤ) : ℚ) * (ftp : ℚ) * ((ftp : ℚ) / (ftp : ℚ)) /
      ((ftp : ℚ) * 3600) * 100 = ((100 : ℤ) : ℚ) := by
    field_simp
    ring
  rw [h100, ratTrunc_intCast]

/-- Witness for C1 at `FTP = 260`, one hour at `NP = 260`. -/
theorem tss_calculate_correct_witness :
    (0 : ℤ) < 260 ∧ TSS.calculate 260 3600 260 = 100 :=
  ⟨by decide, (tss_calculate_correct 260 3600 260 (by decide)).2⟩

/-- C6: below 30 samples, `calc_normalized_power` is the plain average,
which is `none` exactly on the empty sequence. -/
theorem np_below_30 (powerData : List ℤ) (h : powerData.length < 30) :
    calc_normalized_power powerData = intAverage powerData ∧
    (calc_normalized_power powerData = none ↔ powerData = []) := by
  have h1 : calc_normalized_power powerData = intAverage powerData := by
    simp [calc_normalized_power, h]
  refine ⟨h1, ?_⟩
  rw [h1]
  unfold intAverage
  rcases powerData with _ | ⟨a, t⟩ <;> simp

/-- Witness for C6 on a four-sample constant stream. -/
theorem np_below_30_witness :
    ([200, 200, 200, 200] : List ℤ).length < 30 ∧
      (calc_normalized_power [200, 200, 200, 200] = intAverage [200, 200, 200, 200] ∧
        (calc_normalized_power [200, 200, 200, 200] = none ↔
          ([200, 200, 200, 200] : List ℤ) = [])) :=
  ⟨by decide, np_below_30 [200, 200, 200, 200] (by decide)⟩

theorem countZone_cons (fthr : ℤ) (z : ℕ) (hr : ℤ) (t : List ℤ) :
    countZone fthr z (hr :: t) =
      (if hrZoneIndex fthr hr = z then 1 else 0) + countZone fthr z t := by
  simp only [countZone, List.filter_cons]
  split_ifs with h <;> simp_all <;> omega

theorem foldl_hrZoneStep (fthr : ℤ) (l : List ℤ) :
    ∀ c : ℤ × ℤ × ℤ × ℤ × ℤ × ℤ × ℤ × ℤ × ℤ × ℤ,
      l.foldl (hrZoneStep fthr) c =
        (c.1 + (countZone fthr 0 l : ℤ), c.2.1 + (countZone fthr 1 l : ℤ),
         c.2.2.1 + (countZone fthr 2 l : ℤ), c.2.2.2.1 + (countZone fthr 3 l : ℤ),
         c.2.2.2.2.1 + (countZone fthr 4 l : ℤ), c.2.2.2.2.2.1 + (countZone fthr 5 l : ℤ),
         c.2.2.2.2.2.2.1 + (countZone fthr 6 l : ℤ),
         c.2.2.2.2.2.2.2.1 + (countZone fthr 7 l : ℤ),
         c.2.2.2.2.2.2.2.2.1 + (countZone fthr 8 l : ℤ),
         c.2.2.2.2.2.2.2.2.2 + (countZone fthr 9 l : ℤ)) := by
  induction l with
  | nil =>
    intro c
    obtain ⟨c0, c1, c2, c3, c4, c5, c6, c7, c8, c9⟩ := c
    simp [countZone]
  | cons hr t ih =>
    intro c
    obtain ⟨c0, c1, c2, c3, c4, c5, c6, c7, c8, c9⟩ := c
    rw [List.foldl_cons, ih]
    simp only [countZone_cons]
    by_cases h0 : hr < (hrZoneCuts fthr).1
    · simp [hrZoneStep, hrZoneIndex, h0]; omega
    by_cases h1 : hr < (hrZoneCuts fthr).2.1
    · simp [hrZoneStep, hrZoneIndex, h0, h1]; omega
    by_cases h2 : hr < (hrZoneCuts fthr).2.2.1
    · simp [hrZoneStep, hrZoneIndex, h0, h1, h2]; omega
    by_cases h3 : hr < (hrZoneCuts fthr).2.2.2.1
    · simp [hrZoneStep, hrZoneIndex, h0, h1, h2, h3]; omega
    by_cases h4 : hr < (hrZoneCuts fthr).2.2.2.2.1
    · simp [hrZoneStep, hrZoneIndex, h0, h1, h2, h3, h4]; omega
    by_cases h5 : hr < (hrZoneCuts fthr).2.2.2.2.2.1
    · simp [hrZoneStep, hrZoneIndex, h0, h1, h2, h3, h4, h5]; omega
    by_cases h6 : hr < (hrZoneCuts fthr).2.2.2.2.2.2.1
    · simp [hrZoneStep, hrZoneIndex, h0, h1, h2, h3, h4, h5, h6]; omega
    by_cases h7 : hr < (hrZoneCuts fthr).2.2.2.2.2.2.2.1
    · simp [hrZoneStep, hrZoneIndex, h0, h1, h2, h3, h4, h5, h6, h7]; omega
    by_cases h8 : hr < (hrZoneCuts fthr).2.2.2.2.2.2.2.2
    · simp [hrZoneStep, hrZoneIndex, h0, h1, h2, h3, h4, h5, h6, h7, h8]; omega
    · simp [hrZoneStep, hrZoneIndex, h0, h1, h2, h3, h4, h5, h6, h7, h8]; omega

/-- C4: `calculate_hr_tss` equals the spec's hrTSS: classify each sample
into one of ten zones at the stated cut points, sum `count × weight` over
the zones, divide by 3600, truncate. -/
theorem hr_tss_matches_spec (fthr : ℤ) (data : List ℤ) :
    TSS.calculate_hr_tss fthr data = specHrTSS fthr data := by
  unfold TSS.calculate_hr_tss specHrTSS
  rw [foldl_hrZoneStep]
  simp only [zero_add]
  congr 1
  rw [Finset.sum_range_succ, Finset.sum_range_succ, Finset.sum_range_succ,
    Finset.sum_range_succ, Finset.sum_range_succ, Finset.sum_range_succ,
    Finset.sum_range_succ, Finset.sum_range_succ, Finset.sum_range_succ,
    Finset.sum_range_succ, Finset.sum_range_zero]
  simp only [hrZoneWeight, countZone]
  ring

theorem windowsN_replicate {α : Type} (size n : ℕ) (hs : size ≠ 0) (h : size ≤ n)
    (c : α) :
    windowsN size (List.replicate n c) =
      List.replicate (n - size + 1) (List.replicate size c) := by
  unfold windowsN
  rw [if_pos ⟨hs, by simp [h]⟩, List.length_replicate]
  have hwin : ∀ i ∈ List.range (n - size + 1),
      ((List.replicate n c).drop i).take size = List.replicate size c := by
    intro i hi
    rw [List.drop_replicate, List.take_replicate]
    congr 1
    rw [List.mem_range] at hi
    omega
  rw [List.map_congr_left hwin, List.map_const', List.length_range]

theorem intAverage_replicate (k : ℕ) (hk : k ≠ 0) (c : ℤ) :
    intAverage (List.replicate k c) = some c := by
  unfold intAverage
  rw [if_pos (by simp [List.isEmpty_iff, List.replicate_eq_nil, hk])]
  rw [List.sum_replicate, List.length_replicate, nsmul_eq_mul]
  rw [Int.mul_tdiv_cancel_left c (by exact_mod_cast hk)]

theorem intFourthRoot_pow4 (c : ℤ) (hc : 0 ≤ c) : intFourthRoot (c ^ 4) = c := by
  unfold intFourthRoot
  lift c to ℕ using hc with c'
  rw [← Nat.cast_pow, Int.toNat_natCast]
  have hle : c' ≤ c' ^ 4 := Nat.le_self_pow (by norm_num) c'
  have hfilter : (Finset.range (c' ^ 4)).filter (fun k => (k + 1) ^ 4 ≤ c' ^ 4) =
      Finset.range c' := by
    ext k
    simp only [Finset.mem_filter, Finset.mem_range,
      Nat.pow_le_pow_iff_left (by norm_num : (4 : ℕ) ≠ 0)]
    omega
  rw [hfilter, Finset.card_range]

/-- Counterexample to C7 as stated: a constant stream of 30 samples at
power `-1` yields Normalized Power `1`, not the constant `-1` (the fourth
power erases the sign). -/
theorem np_constant_counterexample :
    calc_normalized_power (List.replicate 30 (-1 : ℤ)) = some 1 ∧
      some (1 : ℤ) ≠ some (-1 : ℤ) := by
  decide

/-- C7 (amended): for every *non-negative* constant power value `c` and
every length `n ≥ 30`, `calc_normalized_power` on `n` copies of `c`
returns exactly `c`. -/
theorem np_constant_nonneg (c : ℤ) (n : ℕ) (hc : 0 ≤ c) (hn : 30 ≤ n) :
    calc_normalized_power (List.replicate n c) = some c := by
  unfold calc_normalized_power
  rw [List.length_replicate, if_neg (by omega)]
  unfold rolling_averages
  rw [windowsN_replicate 30 n (by norm_num) hn c, List.map_replicate,
    intAverage_replicate 30 (by norm_num) c]
  simp only [Option.getD_some, List.map_replicate]
  rw [intAverage_replicate (n - 30 + 1) (by omega) (c ^ 4)]
  rw [Option.map_some', intFourthRoot_pow4 c hc]

/-- Witness for the amended C7 at `c = 200`, `n = 30`. -/
theorem np_constant_nonneg_witness :
    (0 : ℤ) ≤ 200 ∧ 30 ≤ 30 ∧
      calc_normalized_power (List.replicate 30 (200 : ℤ)) = some 200 :=
  ⟨by decide, by decide, np_constant_nonneg 200 30 (by decide) (by decide)⟩

theorem foldl_altitudeStep_eq_altWalk (l : List ℚ) :
    ∀ (g lo : Option ℚ) (p : ℚ),
      l.foldl altitudeStep (g, lo, some p) =
        ((altWalk g lo p l).1, (altWalk g lo p l).2.1, some (altWalk g lo p l).2.2) := by
  induction l with
  | nil => intro g lo p; simp [altWalk]
  | cons a t ih =>
    intro g lo p
    by_cases hpa : p < a
    · rcases g with _ | gv <;> simp [altitudeStep, altWalk, hpa, ih]
    · rcases lo with _ | lv <;> simp [altitudeStep, altWalk, hpa, ih]

theorem altWalk_gain_none (l : List ℚ) :
    ∀ (g lo : Option ℚ) (p : ℚ),
      (altWalk g lo p l).1 = none ↔
        g = none ∧ List.Chain (fun a b => b ≤ a) p l := by
  induction l with
  | nil => intro g lo p; simp [altWalk]
  | cons a t ih =>
    intro g lo p
    by_cases hpa : p < a
    · rcases g with _ | gv <;> simp [altWalk, hpa, ih, List.chain_cons, hpa.not_le]
    · simp [altWalk, hpa, ih, List.chain_cons, not_lt.mp hpa]

theorem altWalk_loss_none (l : List ℚ) :
    ∀ (g lo : Option ℚ) (p : ℚ),
      (altWalk g lo p l).2.1 = none ↔
        lo = none ∧ List.Chain (fun a b => a < b) p l := by
  induction l with
  | nil => intro g lo p; simp [altWalk]
  | cons a t ih =>
    intro g lo p
    by_cases hpa : p < a
    · simp [altWalk, hpa, ih, List.chain_cons]
    · rcases lo with _ | lv <;> simp [altWalk, hpa, ih, List.chain_cons]

/-- Counterexample to C5 as stated: on the perfectly flat trace `[5, 5]`
the loss accumulator *is* initialised (with the zero-magnitude decrease),
so the loss is `some 0`, not undefined. -/
theorem altitude_flat_counterexample :
    calc_altitude_changes [5, 5] = (none, some 0) := by
  norm_num [calc_altitude_changes, altitudeStep]

/-- C5 (amended): the gain is undefined exactly when no consecutive pair
strictly increases, and the loss is undefined exactly when every
consecutive pair strictly increases — an equal pair initialises the loss
with a zero-magnitude decrease, so a flat trace has gain `none` but loss
`some 0`. -/
theorem altitude_changes_none_iff (altitudeData : List ℚ) :
    ((calc_altitude_changes altitudeData).1 = none ↔
      List.Chain' (fun a b => b ≤ a) altitudeData) ∧
    ((calc_altitude_changes altitudeData).2 = none ↔
      List.Chain' (fun a b => a < b) altitudeData) := by
  rcases altitudeData with _ | ⟨a, t⟩
  · simp [calc_altitude_changes]
  · have hstep : altitudeStep (none, none, none) a = (none, none, some a) := rfl
    have hgain := altWalk_gain_none t none none a
    have hloss := altWalk_loss_none t none none a
    have hc1 : List.Chain' (fun x y : ℚ => y ≤ x) (a :: t) ↔
        List.Chain (fun x y : ℚ => y ≤ x) a t := Iff.rfl
    have hc2 : List.Chain' (fun x y : ℚ => x < y) (a :: t) ↔
        List.Chain (fun x y : ℚ => x < y) a t := Iff.rfl
    unfold calc_altitude_changes
    rw [List.foldl_cons, hstep, foldl_altitudeStep_eq_altWalk]
    simp [hgain, hloss, hc1, hc2]

theorem getLast?_mem_list {α : Type} {l : List α} {a : α}
    (h : l.getLast? = some a) : a ∈ l := by
  obtain ⟨hne, heq⟩ := List.mem_getLast?_eq_getLast (by simpa [Option.mem_def] using h)
  rw [heq]
  exact List.getLast_mem hne

theorem peakMaxStep_none (p : Peak) : peakMaxStep none p = some p := rfl

theorem peakMaxStep_some (a p : Peak) :
    peakMaxStep (some a) p = if a.value > p.value then some a else some p := rfl

theorem foldl_peakMaxStep_isSome (l : List Peak) :
    ∀ a : Peak, (l.foldl peakMaxStep (some a)).isSome := by
  induction l with
  | nil => intro a; rfl
  | cons b t ih =>
    intro a
    rw [List.foldl_cons, peakMaxStep_some]
    split_ifs <;> exact ih _

theorem peaksMax_none_iff (l : List Peak) : peaksMax l = none ↔ l = [] := by
  rcases l with _ | ⟨a, t⟩
  · simp [peaksMax]
  · have h := foldl_peakMaxStep_isSome t a
    simp only [peaksMax, List.foldl_cons]
    have hstep : peakMaxStep none a = some a := rfl
    rw [hstep]
    constructor
    · intro hnone
      rw [hnone] at h
      simp at h
    · intro hcon
      exact absurd hcon (by simp)

theorem peaksMax_filter_getLast (l : List Peak) :
    peaksMax l = (l.filter (fun p => decide (isMaxOf l p))).getLast? := by
  induction l using List.reverseRecOn with
  | nil => rfl
  | append_singleton l x ih =>
    have hfold : peaksMax (l ++ [x]) = peakMaxStep (peaksMax l) x := by
      simp [peaksMax, List.foldl_append]
    rcases hpm : peaksMax l with _ | m
    · have hl : l = [] := (peaksMax_none_iff l).mp hpm
      subst hl
      rw [hfold, hpm, peakMaxStep_none]
      simp only [List.nil_append, List.filter_cons, List.filter_nil]
      simp [isMaxOf]
    · have hmem : m ∈ l.filter (fun p => decide (isMaxOf l p)) := by
        have heq : (l.filter (fun p => decide (isMaxOf l p))).getLast? = some m :=
          ih ▸ hpm
        exact getLast?_mem_list heq
      have hml : m ∈ l := (List.mem_filter.mp hmem).1
      have hmax : isMaxOf l m := by
        have := (List.mem_filter.mp hmem).2
        simpa using this
      rw [hfold, hpm, peakMaxStep_some]
      by_cases hcmp : m.value > x.value
      · rw [if_pos hcmp, List.filter_append]
        have hx : decide (isMaxOf (l ++ [x]) x) = false := by
          simp only [decide_eq_false_iff_not, isMaxOf, not_forall]
          exact ⟨m, by simp [hml], by omega⟩
        have hcong : l.filter (fun p => decide (isMaxOf (l ++ [x]) p)) =
            l.filter (fun p => decide (isMaxOf l p)) := by
          apply List.filter_congr
          intro a _
          simp only [decide_eq_decide]
          constructor
          · intro h q hq
            exact h q (List.mem_append_left _ hq)
          · intro h q hq
            rcases List.mem_append.mp hq with hq | hq
            · exact h q hq
            · have hqx : q = x := by simpa using hq
              subst hqx
              have := h m hml
              omega
        rw [hcong]
        simp only [List.filter_cons, List.filter_nil, hx, Bool.false_eq_true,
          if_false, List.append_nil]
        rw [← ih, hpm]
      · rw [if_neg hcmp, List.filter_append]
        have hx : decide (isMaxOf (l ++ [x]) x) = true := by
          simp only [decide_eq_true_eq, isMaxOf]
          intro q hq
          rcases List.mem_append.mp hq with hq | hq
          · have := hmax q hq
            omega
          · have hqx : q = x := by simpa using hq
            subst hqx
            omega
        simp only [List.filter_cons, List.filter_nil, hx, if_true]
        exact (List.getLast?_concat _).symm

theorem windowsN_mem_length {α : Type} (size : ℕ) (l : List α) (w : List α)
    (hw : w ∈ windowsN size l) : w.length = size := by
  unfold windowsN at hw
  split_ifs at hw with h
  · obtain ⟨i, hi, hweq⟩ := List.mem_map.mp hw
    rw [List.mem_range] at hi
    subst hweq
    rw [List.length_take, List.length_drop]
    omega
  · simp at hw

theorem windowsN_eq_nil_iff {α : Type} (size : ℕ) (l : List α) (hs : size ≠ 0) :
    windowsN size l = [] ↔ l.length < size := by
  unfold windowsN
  split_ifs with h
  · obtain ⟨-, hle⟩ := h
    constructor
    · intro hnil
      have : l.length - size + 1 = 0 := by
        by_contra hne
        have : (0 : ℕ) ∈ List.range (l.length - size + 1) := by
          rw [List.mem_range]; omega
        have := List.mem_map_of_mem (fun i => (l.drop i).take size) this
        rw [hnil] at this
        simp at this
      omega
    · intro hlt
      omega
  · constructor
    · intro _
      rcases Nat.lt_or_ge l.length size with hlt | hge
      · exact hlt
      · exact absurd ⟨hs, hge⟩ h
    · intro _
      rfl

theorem windowAvg_of_ne_nil (w : List (ℤ × ℤ)) (hw : w ≠ []) :
    ∃ a, windowAvg w = some a := by
  unfold windowAvg intAverage
  rw [if_pos (by simpa [List.isEmpty_iff, List.map_eq_nil_iff] using hw)]
  exact ⟨_, rfl⟩

theorem get_peak_of_ne_nil (w : List (ℤ × ℤ)) (d : ℤ) (a : ℤ)
    (ha : windowAvg w = some a) :
    get_peak w d = some
      { value := a
        startTime := (w.headD (0, 0)).2
        endTime := (w.getLastD (0, 0)).2
        duration := d } := by
  unfold get_peak
  unfold windowAvg at ha
  rw [ha, Option.map_some']

/-- C8: for a window of `n ≥ 1` seconds, `Peak::from_measurement_records`
is `none` exactly when the sequence has fewer than `n` samples, and
otherwise returns a `Peak` carrying the requested duration, a winning
window's average and its first/last timestamps, with that average maximal
over all length-`n` windows. -/
theorem peak_from_records_correct (ms : List (ℤ × ℤ)) (n : ℤ) (hn : 1 ≤ n) :
    (Peak.from_measurement_records ms n = none ↔ ms.length < n.toNat) ∧
    (∀ p, Peak.from_measurement_records ms n = some p →
      p.duration = n ∧
      (∃ w ∈ windowsN n.toNat ms, windowAvg w = some p.value ∧
        p.startTime = (w.headD (0, 0)).2 ∧ p.endTime = (w.getLastD (0, 0)).2) ∧
      (∀ w ∈ windowsN n.toNat ms, ∀ a, windowAvg w = some a → a ≤ p.value)) := by
  have hs : n.toNat ≠ 0 := by omega
  have hwin_ne : ∀ w ∈ windowsN n.toNat ms, w ≠ [] := by
    intro w hw
    have := windowsN_mem_length n.toNat ms w hw
    intro hnil
    rw [hnil] at this
    simp at this
    omega
  have hwin_peak : ∀ w ∈ windowsN n.toNat ms, ∃ p, get_peak w n = some p := by
    intro w hw
    obtain ⟨a, ha⟩ := windowAvg_of_ne_nil w (hwin_ne w hw)
    exact ⟨_, get_peak_of_ne_nil w n a ha⟩
  constructor
  · rw [Peak.from_measurement_records, peaksMax_none_iff, List.filterMap_eq_nil_iff]
    constructor
    · intro hall
      rw [← windowsN_eq_nil_iff n.toNat ms hs]
      by_contra hne
      obtain ⟨w, hw⟩ := List.exists_mem_of_ne_nil _ hne
      obtain ⟨p, hp⟩ := hwin_peak w hw
      rw [hall w hw] at hp
      exact Option.noConfusion hp
    · intro hlt w hw
      rw [(windowsN_eq_nil_iff n.toNat ms hs).mpr hlt] at hw
      simp at hw
  · intro p hp
    rw [Peak.from_measurement_records, peaksMax_filter_getLast] at hp
    have hmem := getLast?_mem_list hp
    have hml : p ∈ (windowsN n.toNat ms).filterMap (fun w => get_peak w n) :=
      (List.mem_filter.mp hmem).1
    have hmax : isMaxOf ((windowsN n.toNat ms).filterMap (fun w => get_peak w n)) p := by
      have := (List.mem_filter.mp hmem).2
      simpa using this
    obtain ⟨w, hw, hwp⟩ := List.mem_filterMap.mp hml
    obtain ⟨a, ha⟩ := windowAvg_of_ne_nil w (hwin_ne w hw)
    have hwp' := get_peak_of_ne_nil w n a ha
    rw [hwp'] at hwp
    have hpfields := Option.some.inj hwp
    refine ⟨?_, ⟨w, hw, ?_, ?_, ?_⟩, ?_⟩
    · rw [← hpfields]
    · rw [← hpfields]; exact ha
    · rw [← hpfields]
    · rw [← hpfields]
    · intro w' hw' a' ha'
      have hq := get_peak_of_ne_nil w' n a' ha'
      have hqmem : (⟨a', (w'.headD (0, 0)).2, (w'.getLastD (0, 0)).2, n⟩ : Peak) ∈
          (windowsN n.toNat ms).filterMap (fun w => get_peak w n) :=
        List.mem_filterMap.mpr ⟨w', hw', hq⟩
      exact hmax _ hqmem

/-- Witness for C8: two samples, window of one second. -/
theorem peak_from_records_correct_witness :
    (1 : ℤ) ≤ 1 ∧
      ((Peak.from_measurement_records [(5, 10), (7, 11)] 1 = none ↔
        ([(5, 10), (7, 11)] : List (ℤ × ℤ)).length < (1 : ℤ).toNat) ∧
      (∀ p, Peak.from_measurement_records [(5, 10), (7, 11)] 1 = some p →
        p.duration = 1 ∧
        (∃ w ∈ windowsN (1 : ℤ).toNat [(5, 10), (7, 11)], windowAvg w = some p.value ∧
          p.startTime = (w.headD (0, 0)).2 ∧ p.endTime = (w.getLastD (0, 0)).2) ∧
        (∀ w ∈ windowsN (1 : ℤ).toNat [(5, 10), (7, 11)], ∀ a,
          windowAvg w = some a → a ≤ p.value))) :=
  ⟨by decide, peak_from_records_correct [(5, 10), (7, 11)] 1 (by decide)⟩

theorem takeWhile_eq_filter_of_sorted {α : Type} (D : ℤ) :
    ∀ l : List (ℤ × α), l.Pairwise (fun a b => a.1 ≤ b.1) →
      l.takeWhile (fun dv => decide (dv.1 ≤ D)) =
        l.filter (fun dv => decide (dv.1 ≤ D)) := by
  intro l
  induction l with
  | nil => intro _; rfl
  | cons a t ih =>
    intro hp
    rw [List.pairwise_cons] at hp
    by_cases ha : a.1 ≤ D
    · rw [List.takeWhile_cons, List.filter_cons]
      simp [ha, ih hp.2]
    · rw [List.takeWhile_cons, List.filter_cons]
      have hnil : t.filter (fun dv => decide (dv.1 ≤ D)) = [] := by
        rw [List.filter_eq_nil_iff]
        intro b hb
        simp only [decide_eq_true_eq]
        have := hp.1 b hb
        omega
      simp [ha, hnil]

theorem mem_le_getLast_of_sorted {α : Type} :
    ∀ (l : List (ℤ × α)), l.Pairwise (fun a b => a.1 ≤ b.1) →
      ∀ last, l.getLast? = some last → ∀ a ∈ l, a.1 ≤ last.1 := by
  intro l
  induction l with
  | nil => intro _ last h; simp at h
  | cons x t ih =>
    intro hp last hlast a ha
    rw [List.pairwise_cons] at hp
    rcases t with _ | ⟨y, t'⟩
    · have hx : x = last := by simpa using hlast
      have hax : a = x := by simpa using ha
      rw [hax, hx]
    · have hlast' : (y :: t').getLast? = some last := by
        rw [List.getLast?_cons_cons] at hlast
        exact hlast
      rcases List.mem_cons.mp ha with hax | hat
      · have hy : last ∈ y :: t' := getLast?_mem_list hlast'
        have := hp.1 last hy
        rw [hax]
        exact this
      · exact ih hp.2 last hlast' a hat

/-- C9: on a timeline sorted by `MeasurementRecords::new`, the as-of query
for a kind returns the value of the last event of that kind dated at most
`D` (`none` when no such event exists); in particular a query before every
event of the kind is `none`, and a query at or after the last event of the
kind returns that event's value. -/
theorem get_actual_correct {α : Type} (raw : List (ℤ × MeasurementRecord))
    (getter : MeasurementRecord → Option α) (D : ℤ) :
    (MeasurementRecords.get_actual (MeasurementRecords.new raw) D getter =
      ((((MeasurementRecords.new raw).filterMap
          (fun dm => (getter dm.2).map (fun v => (dm.1, v)))).filter
        (fun dv => decide (dv.1 ≤ D))).getLast?).map (fun dv => dv.2)) ∧
    ((∀ dv ∈ (MeasurementRecords.new raw).filterMap
        (fun dm => (getter dm.2).map (fun v => (dm.1, v))), D < dv.1) →
      MeasurementRecords.get_actual (MeasurementRecords.new raw) D getter = none) ∧
    (∀ last, ((MeasurementRecords.new raw).filterMap
        (fun dm => (getter dm.2).map (fun v => (dm.1, v)))).getLast? = some last →
      last.1 ≤ D →
      MeasurementRecords.get_actual (MeasurementRecords.new raw) D getter =
        some last.2) := by
  have hsorted : (MeasurementRecords.new raw).Pairwise (fun a b => a.1 ≤ b.1) := by
    unfold MeasurementRecords.new
    exact List.sorted_insertionSort (fun a b : ℤ × MeasurementRecord => a.1 ≤ b.1) raw
  have helig : ((MeasurementRecords.new raw).filterMap
      (fun dm => (getter dm.2).map (fun v => (dm.1, v)))).Pairwise
        (fun a b => a.1 ≤ b.1) := by
    refine List.Pairwise.filterMap _ ?_ hsorted
    intro a b hab c hc d hd
    simp only [Option.mem_def, Option.map_eq_some'] at hc hd
    obtain ⟨v, -, rfl⟩ := hc
    obtain ⟨w, -, rfl⟩ := hd
    exact hab
  have hmain : MeasurementRecords.get_actual (MeasurementRecords.new raw) D getter =
      ((((MeasurementRecords.new raw).filterMap
          (fun dm => (getter dm.2).map (fun v => (dm.1, v)))).filter
        (fun dv => decide (dv.1 ≤ D))).getLast?).map (fun dv => dv.2) := by
    unfold MeasurementRecords.get_actual
    rw [takeWhile_eq_filter_of_sorted D _ helig]
  refine ⟨hmain, ?_, ?_⟩
  · intro hall
    rw [hmain]
    have : (((MeasurementRecords.new raw).filterMap
        (fun dm => (getter dm.2).map (fun v => (dm.1, v)))).filter
          (fun dv => decide (dv.1 ≤ D))) = [] := by
      rw [List.filter_eq_nil_iff]
      intro b hb
      simp only [decide_eq_true_eq]
      have := hall b hb
      omega
    rw [this]
    rfl
  · intro last hlast hle
    rw [hmain]
    have hself : (((MeasurementRecords.new raw).filterMap
        (fun dm => (getter dm.2).map (fun v => (dm.1, v)))).filter
          (fun dv => decide (dv.1 ≤ D))) =
        ((MeasurementRecords.new raw).filterMap
          (fun dm => (getter dm.2).map (fun v => (dm.1, v)))) := by
      rw [List.filter_eq_self]
      intro b hb
      simp only [decide_eq_true_eq]
      have := mem_le_getLast_of_sorted _ helig last hlast b hb
      omega
    rw [hself, hlast]
    rfl

/-- Witness for C9 on the repository's own example timeline: three FTP
records, queried between the second and third dates. -/
theorem get_actual_correct_witness :
    MeasurementRecords.get_actual
      (MeasurementRecords.new
        [(100, MeasurementRecord.FTP 200), (200, MeasurementRecord.FTP 210),
          (300, MeasurementRecord.FTP 220)]) 250 MeasurementRecord.get_ftp =
      some 210 := by
  have h := (get_actual_correct
    [(100, MeasurementRecord.FTP 200), (200, MeasurementRecord.FTP 210),
      (300, MeasurementRecord.FTP 220)] MeasurementRecord.get_ftp 250).1
  rw [h]
  decide

/-- C10: the scan keeps the later window on ties, so the returned peak is
the last element, in window order, of the maximal-valued peaks — the
latest-starting window attaining the maximal average. -/
theorem peak_tie_break_last (ms : List (ℤ × ℤ)) (n : ℤ) :
    Peak.from_measurement_records ms n =
      (((windowsN n.toNat ms).filterMap (fun w => get_peak w n)).filter
        (fun p => decide
          (isMaxOf ((windowsN n.toNat ms).filterMap (fun w => get_peak w n)) p))).getLast? :=
  peaksMax_filter_getLast _

theorem assocSum_nil (x : ℤ) : assocSum [] x = 0 := rfl

theorem assocSum_cons (p : ℤ × ℤ) (m : List (ℤ × ℤ)) (x : ℤ) :
    assocSum (p :: m) x = (if p.1 = x then p.2 else 0) + assocSum m x := by
  unfold assocSum
  rw [List.filter_cons]
  by_cases h : p.1 = x
  · simp [h]
  · simp [h]

theorem assocSum_cons' (a b : ℤ) (m : List (ℤ × ℤ)) (x : ℤ) :
    assocSum ((a, b) :: m) x = (if a = x then b else 0) + assocSum m x :=
  assocSum_cons (a, b) m x

theorem assocSum_eq_zero (m : List (ℤ × ℤ)) (x : ℤ) (h : ∀ r ∈ m, r.1 ≠ x) :
    assocSum m x = 0 := by
  induction m with
  | nil => rfl
  | cons q rest ih =>
    rw [assocSum_cons, if_neg (h q (List.mem_cons_self q rest)),
      ih (fun r hr => h r (List.mem_cons_of_mem q hr))]
    omega

theorem assocSum_mapInsertWith (d v : ℤ) :
    ∀ m : List (ℤ × ℤ), ∀ x, assocSum (mapInsertWith d v m) x =
      assocSum m x + (if d = x then v else 0) := by
  intro m
  induction m with
  | nil =>
    intro x
    show assocSum [(d, v)] x = assocSum [] x + _
    rw [assocSum_cons, assocSum_nil]
    simp
  | cons q rest ih =>
    intro x
    obtain ⟨qd, qt⟩ := q
    by_cases h1 : d < qd
    · rw [show mapInsertWith d v ((qd, qt) :: rest) = (d, v) :: (qd, qt) :: rest by
        simp only [mapInsertWith]; rw [if_pos h1]]
      rw [assocSum_cons', assocSum_cons']
      split_ifs <;> omega
    · by_cases h2 : d = qd
      · rw [show mapInsertWith d v ((qd, qt) :: rest) = (qd, qt + v) :: rest by
          simp only [mapInsertWith]; rw [if_neg h1, if_pos h2]]
        rw [assocSum_cons', assocSum_cons']
        subst h2
        split_ifs <;> omega
      · rw [show mapInsertWith d v ((qd, qt) :: rest) = (qd, qt) :: mapInsertWith d v rest by
          simp only [mapInsertWith]; rw [if_neg h1, if_neg h2]]
        rw [assocSum_cons', assocSum_cons', ih]
        split_ifs <;> omega

theorem keys_mapInsertWith (d v : ℤ) :
    ∀ m : List (ℤ × ℤ), ∀ x, x ∈ (mapInsertWith d v m).map Prod.fst ↔
      (x = d ∨ x ∈ m.map Prod.fst) := by
  intro m
  induction m with
  | nil => intro x; simp [mapInsertWith]
  | cons q rest ih =>
    intro x
    obtain ⟨qd, qt⟩ := q
    by_cases h1 : d < qd
    · rw [show mapInsertWith d v ((qd, qt) :: rest) = (d, v) :: (qd, qt) :: rest by
        simp only [mapInsertWith]; rw [if_pos h1]]
      simp
    · by_cases h2 : d = qd
      · rw [show mapInsertWith d v ((qd, qt) :: rest) = (qd, qt + v) :: rest by
          simp only [mapInsertWith]; rw [if_neg h1, if_pos h2]]
        subst h2
        simp
      · rw [show mapInsertWith d v ((qd, qt) :: rest) = (qd, qt) :: mapInsertWith d v rest by
          simp only [mapInsertWith]; rw [if_neg h1, if_neg h2]]
        simp only [List.map_cons, List.mem_cons, ih]
        tauto

theorem mapInsertWith_keys (d v : ℤ) (m : List (ℤ × ℤ)) :
    ∀ p ∈ mapInsertWith d v m, p.1 = d ∨ p.1 ∈ m.map Prod.fst := by
  intro p hp
  exact (keys_mapInsertWith d v m p.1).mp (List.mem_map_of_mem Prod.fst hp)

theorem mem_keys_mapInsertWith_self (d v : ℤ) (m : List (ℤ × ℤ)) :
    d ∈ (mapInsertWith d v m).map Prod.fst :=
  (keys_mapInsertWith d v m d).mpr (Or.inl rfl)

theorem mem_keys_mapInsertWith_of_mem (d v : ℤ) (m : List (ℤ × ℤ)) (x : ℤ)
    (hx : x ∈ m.map Prod.fst) : x ∈ (mapInsertWith d v m).map Prod.fst :=
  (keys_mapInsertWith d v m x).mpr (Or.inr hx)

theorem mapInsertWith_pairwise (d v : ℤ) :
    ∀ m : List (ℤ × ℤ), m.Pairwise (fun p q => p.1 < q.1) →
      (mapInsertWith d v m).Pairwise (fun p q => p.1 < q.1) := by
  intro m
  induction m with
  | nil => intro _; simp [mapInsertWith]
  | cons q rest ih =>
    intro hp
    obtain ⟨qd, qt⟩ := q
    rw [List.pairwise_cons] at hp
    obtain ⟨hq, hrest⟩ := hp
    unfold mapInsertWith
    split_ifs with h1 h2
    · rw [List.pairwise_cons]
      refine ⟨?_, ?_⟩
      · intro r hr
        rcases List.mem_cons.mp hr with h | h
        · rw [h]; exact h1
        · have := hq r h
          simp only at this ⊢
          omega
      · rw [List.pairwise_cons]
        exact ⟨hq, hrest⟩
    · rw [List.pairwise_cons]
      exact ⟨hq, hrest⟩
    · rw [List.pairwise_cons]
      refine ⟨?_, ih hrest⟩
      intro r hr
      rcases mapInsertWith_keys d v rest r hr with h | h
      · simp only [h]
        omega
      · obtain ⟨s, hs, hs1⟩ := List.mem_map.mp h
        have := hq s hs
        simp only at this ⊢
        omega

theorem sumTSSAt_nil (x : ℤ) : sumTSSAt [] x = 0 := rfl

theorem sumTSSAt_cons (dt : DailyTSS) (l : List DailyTSS) (x : ℤ) :
    sumTSSAt (dt :: l) x = (if dt.date = x then dt.tss else 0) + sumTSSAt l x := by
  unfold sumTSSAt
  rw [List.filter_cons]
  by_cases h : dt.date = x
  · simp [h]
  · simp [h]

theorem sumTSSAt_eq_zero (l : List DailyTSS) (x : ℤ) (h : ∀ dt ∈ l, dt.date ≠ x) :
    sumTSSAt l x = 0 := by
  induction l with
  | nil => rfl
  | cons dt rest ih =>
    rw [sumTSSAt_cons, if_neg (h dt (List.mem_cons_self dt rest)),
      ih (fun r hr => h r (List.mem_cons_of_mem dt hr))]
    omega

theorem assocSum_foldl (l : List DailyTSS) :
    ∀ (m : List (ℤ × ℤ)) (x : ℤ),
      assocSum (l.foldl (fun acc dt => mapInsertWith dt.date dt.tss acc) m) x =
        assocSum m x + sumTSSAt l x := by
  induction l with
  | nil => intro m x; rw [List.foldl_nil, sumTSSAt_nil, add_zero]
  | cons dt rest ih =>
    intro m x
    rw [List.foldl_cons, ih, assocSum_mapInsertWith, sumTSSAt_cons]
    ring

theorem pairwise_foldl (l : List DailyTSS) :
    ∀ m : List (ℤ × ℤ), m.Pairwise (fun p q => p.1 < q.1) →
      (l.foldl (fun acc dt => mapInsertWith dt.date dt.tss acc) m).Pairwise
        (fun p q => p.1 < q.1) := by
  induction l with
  | nil => intro m hm; exact hm
  | cons dt rest ih =>
    intro m hm
    rw [List.foldl_cons]
    exact ih _ (mapInsertWith_pairwise dt.date dt.tss m hm)

theorem keys_foldl_mono (l : List DailyTSS) :
    ∀ (m : List (ℤ × ℤ)) (x : ℤ), x ∈ m.map Prod.fst →
      x ∈ (l.foldl (fun acc dt => mapInsertWith dt.date dt.tss acc) m).map Prod.fst := by
  induction l with
  | nil => intro m x hx; exact hx
  | cons dt rest ih =>
    intro m x hx
    rw [List.foldl_cons]
    exact ih _ x (mem_keys_mapInsertWith_of_mem dt.date dt.tss m x hx)

theorem keys_foldl_of_mem (l : List DailyTSS) :
    ∀ (m : List (ℤ × ℤ)), ∀ e ∈ l,
      e.date ∈ (l.foldl (fun acc dt => mapInsertWith dt.date dt.tss acc) m).map
        Prod.fst := by
  induction l with
  | nil => intro m e he; simp at he
  | cons dt rest ih =>
    intro m e he
    rw [List.foldl_cons]
    rcases List.mem_cons.mp he with h | h
    · rw [h]
      exact keys_foldl_mono rest _ dt.date (mem_keys_mapInsertWith_self dt.date dt.tss m)
    · exact ih _ e h

theorem initMap_tss_zero (unsorted : List DailyTSS) (lastKnownStats : Option DailyStats) :
    ∀ p ∈ initMap unsorted lastKnownStats, p.2 = 0 := by
  intro p hp
  unfold initMap at hp
  rcases lastKnownStats with _ | stats
  · simp at hp
  · rcases unsorted with _ | ⟨first, rest⟩
    · simp at hp
    · simp only [List.head?_cons] at hp
      obtain ⟨i, -, hi⟩ := List.mem_map.mp hp
      rw [← hi]

theorem assocSum_initMap (unsorted : List DailyTSS) (lastKnownStats : Option DailyStats)
    (x : ℤ) : assocSum (initMap unsorted lastKnownStats) x = 0 := by
  unfold assocSum
  apply List.sum_eq_zero
  intro y hy
  obtain ⟨p, hp, hpy⟩ := List.mem_map.mp hy
  rw [← hpy]
  exact initMap_tss_zero unsorted lastKnownStats p (List.mem_of_mem_filter hp)

theorem initMap_pairwise (unsorted : List DailyTSS) (lastKnownStats : Option DailyStats) :
    (initMap unsorted lastKnownStats).Pairwise (fun p q => p.1 < q.1) := by
  unfold initMap
  rcases lastKnownStats with _ | stats
  · simp
  · rcases unsorted with _ | ⟨first, rest⟩
    · simp
    · simp only [List.head?_cons]
      refine (List.pairwise_lt_range _).map _ ?_
      intro a b hab
      show stats.date + ((a : ℤ) + 1) < stats.date + ((b : ℤ) + 1)
      omega

theorem assocSum_of_mem :
    ∀ m : List (ℤ × ℤ), m.Pairwise (fun p q => p.1 < q.1) →
      ∀ p ∈ m, assocSum m p.1 = p.2 := by
  intro m
  induction m with
  | nil => intro _ p hp; simp at hp
  | cons q rest ih =>
    intro hm p hp
    rw [List.pairwise_cons] at hm
    obtain ⟨hq, hrest⟩ := hm
    rcases List.mem_cons.mp hp with h | h
    · subst h
      rw [assocSum_cons, if_pos rfl,
        assocSum_eq_zero rest p.1 (fun r hr => by have := hq r hr; omega), add_zero]
    · rw [assocSum_cons, if_neg (by have := hq p h; omega), ih hrest p h, zero_add]

theorem fillDays_eq_rangeMap :
    ∀ (k : ℕ) (s : ℤ), fillDays s k =
      (List.range k).map (fun i : ℕ => { date := s + ((i : ℤ) + 1), tss := 0 }) := by
  intro k
  induction k with
  | zero => intro s; rfl
  | succ k ih =>
    intro s
    show ({ date := s + 1, tss := 0 } : DailyTSS) :: fillDays (s + 1) k = _
    rw [ih (s + 1), List.range_succ_eq_map, List.map_cons, List.map_map]
    refine congrArg₂ _ ?_ ?_
    · simp
    · apply List.map_congr_left
      intro i _
      simp only [Function.comp_apply, DailyTSS.mk.injEq]
      exact ⟨by push_cast; ring, trivial⟩

theorem foldl_gapFillStep (l : List DailyTSS) :
    ∀ (acc : List DailyTSS) (p : DailyTSS), acc.getLast? = some p →
      l.foldl gapFillStep acc = acc ++ gfRec p l := by
  induction l with
  | nil => intro acc p _; simp [gfRec]
  | cons d rest ih =>
    intro acc p hlast
    rw [List.foldl_cons]
    have hstep : gapFillStep acc d =
        (acc ++ fillDays p.date ((d.date - p.date).toNat - 1)) ++ [d] := by
      unfold gapFillStep
      rw [hlast, fillDays_eq_rangeMap]
    rw [hstep, ih _ d (List.getLast?_concat _)]
    show _ = acc ++ ((fillDays p.date ((d.date - p.date).toNat - 1) ++ [d]) ++ gfRec d rest)
    simp [List.append_assoc]

theorem chain_fillDays :
    ∀ (k : ℕ) (prev d : DailyTSS) (tl : List DailyTSS),
      d.date = prev.date + k + 1 →
      List.Chain (fun a b => b.date = a.date + 1) d tl →
      List.Chain (fun a b => b.date = a.date + 1) prev (fillDays prev.date k ++ d :: tl) := by
  intro k
  induction k with
  | zero =>
    intro prev d tl hd hc
    show List.Chain _ prev (d :: tl)
    exact List.Chain.cons (by omega) hc
  | succ k ih =>
    intro prev d tl hd hc
    show List.Chain _ prev
      (({ date := prev.date + 1, tss := 0 } : DailyTSS) :: (fillDays (prev.date + 1) k ++ d :: tl))
    refine List.Chain.cons rfl ?_
    have := ih { date := prev.date + 1, tss := 0 } d tl
      (by show d.date = prev.date + 1 + (k : ℤ) + 1; omega) hc
    exact this

theorem gfRec_chain :
    ∀ (rest : List DailyTSS) (prev : DailyTSS),
      List.Chain (fun a b => a.date < b.date) prev rest →
      List.Chain (fun a b => b.date = a.date + 1) prev (gfRec prev rest) := by
  intro rest
  induction rest with
  | nil => intro prev _; exact List.Chain.nil
  | cons d rest' ih =>
    intro prev hc
    rw [List.chain_cons] at hc
    obtain ⟨hpd, hc'⟩ := hc
    show List.Chain _ prev
      ((fillDays prev.date ((d.date - prev.date).toNat - 1) ++ [d]) ++ gfRec d rest')
    rw [List.append_assoc, List.singleton_append]
    exact chain_fillDays _ prev d (gfRec d rest') (by omega) (ih d hc')

theorem fillDays_mem :
    ∀ (k : ℕ) (s : ℤ) (e : DailyTSS), e ∈ fillDays s k →
      e.tss = 0 ∧ s + 1 ≤ e.date ∧ e.date ≤ s + k := by
  intro k
  induction k with
  | zero => intro s e he; simp [fillDays] at he
  | succ k ih =>
    intro s e he
    rcases List.mem_cons.mp he with h | h
    · subst h
      refine ⟨rfl, by simp, by simp⟩
    · obtain ⟨h1, h2, h3⟩ := ih (s + 1) e h
      refine ⟨h1, by omega, by omega⟩

theorem gfRec_mem_rest :
    ∀ (rest : List DailyTSS) (prev e : DailyTSS), e ∈ rest → e ∈ gfRec prev rest := by
  intro rest
  induction rest with
  | nil => intro prev e he; simp at he
  | cons d rest' ih =>
    intro prev e he
    show e ∈ (fillDays prev.date ((d.date - prev.date).toNat - 1) ++ [d]) ++ gfRec d rest'
    rcases List.mem_cons.mp he with h | h
    · subst h
      apply List.mem_append_left
      apply List.mem_append_right
      simp
    · exact List.mem_append_right _ (ih d e h)

theorem gfRec_tss :
    ∀ (rest : List DailyTSS) (prev : DailyTSS) (lFull : List DailyTSS),
      List.Pairwise (fun a b => a.date < b.date) (prev :: rest) →
      (∀ q ∈ lFull, q ∈ prev :: rest ∨ q.date ≤ prev.date) →
      ∀ e ∈ gfRec prev rest,
        e ∈ rest ∨ (e.tss = 0 ∧ ∀ q ∈ lFull, q.date ≠ e.date) := by
  intro rest
  induction rest with
  | nil => intro prev lFull _ _ e he; simp [gfRec] at he
  | cons d rest' ih =>
    intro prev lFull hp hlow e he
    rw [List.pairwise_cons] at hp
    obtain ⟨hprev, hp'⟩ := hp
    have hpd : prev.date < d.date := hprev d (List.mem_cons_self d rest')
    have hdrest : ∀ q ∈ rest', d.date < q.date := by
      rw [List.pairwise_cons] at hp'
      exact hp'.1
    rcases List.mem_append.mp he with he1 | he2
    · rcases List.mem_append.mp he1 with hfill | hd
      · obtain ⟨h0, hlo, hhi⟩ := fillDays_mem _ prev.date e hfill
        right
        refine ⟨h0, ?_⟩
        intro q hq
        have hed : e.date < d.date := by omega
        rcases hlow q hq with hmem | hle
        · rcases List.mem_cons.mp hmem with h | h
          · subst h; omega
          · rcases List.mem_cons.mp h with h | h
            · subst h; omega
            · have := hdrest q h
              omega
        · omega
      · left
        have : e = d := by simpa using hd
        rw [this]
        exact List.mem_cons_self d rest'
    · have ihres := ih d lFull hp' ?_ e he2
      · rcases ihres with h | h
        · left; exact List.mem_cons_of_mem d h
        · right; exact h
      · intro q hq
        rcases hlow q hq with hmem | hle
        · rcases List.mem_cons.mp hmem with h | h
          · right; rw [h]; omega
          · left; exact h
        · right; omega

theorem mem_dropWhile_of_mem {α : Type} (p : α → Bool) :
    ∀ (l : List α) (e : α), e ∈ l → p e = false → e ∈ l.dropWhile p := by
  intro l
  induction l with
  | nil => intro e he _; simp at he
  | cons a t ih =>
    intro e he hpe
    rw [List.dropWhile_cons]
    split_ifs with hpa
    · rcases List.mem_cons.mp he with h | h
      · subst h; rw [hpe] at hpa; simp at hpa
      · exact ih e h hpe
    · exact he

theorem dropWhile_dates_gt (C : ℤ) :
    ∀ l : List DailyTSS, l.Pairwise (fun a b => a.date < b.date) →
      ∀ e ∈ l.dropWhile (fun dt => decide (dt.date ≤ C)), C < e.date := by
  intro l
  induction l with
  | nil => intro _ e he; simp at he
  | cons a t ih =>
    intro hp e he
    rw [List.pairwise_cons] at hp
    rw [List.dropWhile_cons] at he
    split_ifs at he with ha
    · exact ih hp.2 e he
    · simp only [decide_eq_true_eq] at ha
      rcases List.mem_cons.mp he with h | h
      · subst h; omega
      · have := hp.1 e h
        omega

theorem chain'_dropWhile {α : Type} (R : α → α → Prop) (p : α → Bool) :
    ∀ l : List α, List.Chain' R l → List.Chain' R (l.dropWhile p) := by
  intro l
  induction l with
  | nil => intro h; exact h
  | cons a t ih =>
    intro h
    rw [List.dropWhile_cons]
    split_ifs with hpa
    · exact ih ((List.chain'_cons'.mp h).2)
    · exact h

theorem skipOld_none (l : List DailyTSS) : skipOld none l = l := by
  unfold skipOld
  induction l with
  | nil => rfl
  | cons a t ih =>
    rw [List.dropWhile_cons]
    simp

/-- C2: the series produced by `SortedDailyTSS::from_unsorted` is strictly
contiguous (adjacent entries differ by exactly one day), sorted ascending
by date, dated strictly after the checkpoint when one is given, carries on
every entry the total TSS the raw input records on that date (zero on
filled gap days), and retains a day for every raw entry dated after the
checkpoint. -/
theorem from_unsorted_normalized (unsorted : List DailyTSS)
    (lastKnownStats : Option DailyStats) :
    List.Chain' (fun a b => b.date = a.date + 1)
      (SortedDailyTSS.from_unsorted unsorted lastKnownStats) ∧
    List.Pairwise (fun a b => a.date < b.date)
      (SortedDailyTSS.from_unsorted unsorted lastKnownStats) ∧
    (∀ st, lastKnownStats = some st →
      ∀ e ∈ SortedDailyTSS.from_unsorted unsorted lastKnownStats, st.date < e.date) ∧
    (∀ e ∈ SortedDailyTSS.from_unsorted unsorted lastKnownStats,
      e.tss = sumTSSAt unsorted e.date) ∧
    (∀ e ∈ unsorted, (∀ st, lastKnownStats = some st → st.date < e.date) →
      ∃ e' ∈ SortedDailyTSS.from_unsorted unsorted lastKnownStats,
        e'.date = e.date) := by
  have hMp : (unsorted.foldl (fun acc dt => mapInsertWith dt.date dt.tss acc)
      (initMap unsorted lastKnownStats)).Pairwise (fun p q => p.1 < q.1) :=
    pairwise_foldl unsorted _ (initMap_pairwise unsorted lastKnownStats)
  have hMsum : ∀ x, assocSum (unsorted.foldl
      (fun acc dt => mapInsertWith dt.date dt.tss acc)
      (initMap unsorted lastKnownStats)) x = sumTSSAt unsorted x := by
    intro x
    rw [assocSum_foldl, assocSum_initMap, zero_add]
  have hlp : ((unsorted.foldl (fun acc dt => mapInsertWith dt.date dt.tss acc)
      (initMap unsorted lastKnownStats)).map
        (fun p => DailyTSS.mk p.1 p.2)).Pairwise (fun a b => a.date < b.date) :=
    List.pairwise_map.mpr hMp
  have htss : ∀ e ∈ (unsorted.foldl (fun acc dt => mapInsertWith dt.date dt.tss acc)
      (initMap unsorted lastKnownStats)).map (fun p => DailyTSS.mk p.1 p.2),
      e.tss = sumTSSAt unsorted e.date := by
    intro e he
    obtain ⟨p, hp, hpe⟩ := List.mem_map.mp he
    rw [← hpe]
    show p.2 = sumTSSAt unsorted p.1
    rw [← hMsum p.1]
    exact (assocSum_of_mem _ hMp p hp).symm
  have hcomp : ∀ x, (∃ dt ∈ unsorted, dt.date = x) →
      ∃ q ∈ (unsorted.foldl (fun acc dt => mapInsertWith dt.date dt.tss acc)
        (initMap unsorted lastKnownStats)).map (fun p => DailyTSS.mk p.1 p.2),
        q.date = x := by
    intro x hx
    obtain ⟨dt, hdt, hdx⟩ := hx
    subst hdx
    have hk := keys_foldl_of_mem unsorted (initMap unsorted lastKnownStats) dt hdt
    obtain ⟨p, hp, hpk⟩ := List.mem_map.mp hk
    exact ⟨DailyTSS.mk p.1 p.2, List.mem_map_of_mem _ hp, hpk⟩
  have main : ∀ l : List DailyTSS,
      l.Pairwise (fun a b => a.date < b.date) →
      (∀ e ∈ l, e.tss = sumTSSAt unsorted e.date) →
      (∀ x, (∃ dt ∈ unsorted, dt.date = x) → ∃ q ∈ l, q.date = x) →
      List.Chain' (fun a b => b.date = a.date + 1)
        (skipOld lastKnownStats (l.foldl gapFillStep [])) ∧
      List.Pairwise (fun a b => a.date < b.date)
        (skipOld lastKnownStats (l.foldl gapFillStep [])) ∧
      (∀ st, lastKnownStats = some st →
        ∀ e ∈ skipOld lastKnownStats (l.foldl gapFillStep []), st.date < e.date) ∧
      (∀ e ∈ skipOld lastKnownStats (l.foldl gapFillStep []),
        e.tss = sumTSSAt unsorted e.date) ∧
      (∀ e ∈ unsorted, (∀ st, lastKnownStats = some st → st.date < e.date) →
        ∃ e' ∈ skipOld lastKnownStats (l.foldl gapFillStep []),
          e'.date = e.date) := by
    intro l hlpw hltss hlcomp
    rcases l with _ | ⟨e0, lrest⟩
    · refine ⟨?_, ?_, ?_, ?_, ?_⟩
      · rcases lastKnownStats with _ | st
        · rw [List.foldl_nil, skipOld_none]; trivial
        · show List.Chain' _ (List.dropWhile _ [])
          trivial
      · rcases lastKnownStats with _ | st
        · rw [List.foldl_nil, skipOld_none]; trivial
        · show List.Pairwise _ (List.dropWhile _ [])
          trivial
      · intro st _ e he
        rcases lastKnownStats with _ | st'
        · rw [List.foldl_nil, skipOld_none] at he; simp at he
        · simp only [List.foldl_nil] at he
          exact absurd he (by simp [skipOld])
      · intro e he
        rcases lastKnownStats with _ | st'
        · rw [List.foldl_nil, skipOld_none] at he; simp at he
        · simp only [List.foldl_nil] at he
          exact absurd he (by simp [skipOld])
      · intro e he _
        obtain ⟨q, hq, -⟩ := hlcomp e.date ⟨e, he, rfl⟩
        simp at hq
    · have hg : (e0 :: lrest).foldl gapFillStep [] = e0 :: gfRec e0 lrest := by
        rw [List.foldl_cons]
        have h1 : gapFillStep [] e0 = [e0] := rfl
        rw [h1, foldl_gapFillStep lrest [e0] e0 rfl]
        rfl
      have hchain_g : List.Chain' (fun a b => b.date = a.date + 1)
          (e0 :: gfRec e0 lrest) := by
        show List.Chain _ e0 (gfRec e0 lrest)
        refine gfRec_chain lrest e0 ?_
        exact List.chain'_iff_pairwise.mpr hlpw
      have hpw_g : List.Pairwise (fun a b => a.date < b.date)
          (e0 :: gfRec e0 lrest) := by
        refine List.chain'_iff_pairwise.mp ?_
        exact hchain_g.imp (fun a b h => by omega)
      have htss_g : ∀ e ∈ e0 :: gfRec e0 lrest, e.tss = sumTSSAt unsorted e.date := by
        intro e he
        rcases List.mem_cons.mp he with h | h
        · rw [h]
          exact hltss e0 (List.mem_cons_self e0 lrest)
        · have hres := gfRec_tss lrest e0 (e0 :: lrest) hlpw
            (fun q hq => Or.inl hq) e h
          rcases hres with h1 | ⟨h0, hne⟩
          · exact hltss e (List.mem_cons_of_mem e0 h1)
          · rw [h0]
            refine (sumTSSAt_eq_zero unsorted e.date ?_).symm
            intro dt hdt hcontra
            obtain ⟨q, hq, hqd⟩ := hlcomp e.date ⟨dt, hdt, hcontra⟩
            exact hne q hq hqd
      have hmem_g : ∀ q ∈ e0 :: lrest, q ∈ e0 :: gfRec e0 lrest := by
        intro q hq
        rcases List.mem_cons.mp hq with h | h
        · rw [h]; exact List.mem_cons_self _ _
        · exact List.mem_cons_of_mem e0 (gfRec_mem_rest lrest e0 q h)
      rw [hg]
      rcases lastKnownStats with _ | st
      · rw [skipOld_none]
        refine ⟨hchain_g, hpw_g, ?_, htss_g, ?_⟩
        · intro st hst
          exact absurd hst (by simp)
        · intro e he _
          obtain ⟨q, hq, hqd⟩ := hlcomp e.date ⟨e, he, rfl⟩
          exact ⟨q, hmem_g q hq, hqd⟩
      · have hskip : skipOld (some st) (e0 :: gfRec e0 lrest) =
            (e0 :: gfRec e0 lrest).dropWhile (fun dt => decide (dt.date ≤ st.date)) :=
          rfl
        rw [hskip]
        refine ⟨?_, ?_, ?_, ?_, ?_⟩
        · exact chain'_dropWhile _ _ _ hchain_g
        · refine List.chain'_iff_pairwise.mp ?_
          exact (chain'_dropWhile _ _ _ hchain_g).imp (fun a b h => by omega)
        · intro st' hst' e he
          have hss : st' = st := by injection hst' with h; exact h.symm
          subst hss
          exact dropWhile_dates_gt st'.date _ hpw_g e he
        · intro e he
          exact htss_g e ((List.dropWhile_sublist _).subset he)
        · intro e he hgt
          obtain ⟨q, hq, hqd⟩ := hlcomp e.date ⟨e, he, rfl⟩
          refine ⟨q, ?_, hqd⟩
          apply mem_dropWhile_of_mem _ _ q (hmem_g q hq)
          simp only [decide_eq_false_iff_not]
          have := hgt st rfl
          omega
  exact main _ hlp htss hcomp

/-- Witness for C2: duplicate dates are summed, the gap day is zero-filled,
and the result is contiguous. -/
theorem from_unsorted_normalized_witness :
    List.Chain' (fun a b => b.date = a.date + 1)
      (SortedDailyTSS.from_unsorted
        [⟨10, 5⟩, ⟨12, 7⟩, ⟨10, 3⟩] none) ∧
    SortedDailyTSS.from_unsorted [⟨10, 5⟩, ⟨12, 7⟩, ⟨10, 3⟩] none =
      [⟨10, 8⟩, ⟨11, 0⟩, ⟨12, 7⟩] :=
  ⟨(from_unsorted_normalized [⟨10, 5⟩, ⟨12, 7⟩, ⟨10, 3⟩] none).1, by decide⟩

theorem calc_next_ctl (y : DailyStats) (dt : DailyTSS) :
    (DailyStats.calc_next y dt).ctl =
      y.ctl * Real.exp (-1 / 42) + (dt.tss : ℝ) * (1 - Real.exp (-1 / 42)) := by
  show CTL.calculate y.ctl dt = _
  unfold CTL.calculate calc_training_load
  norm_num

theorem calc_next_atl (y : DailyStats) (dt : DailyTSS) :
    (DailyStats.calc_next y dt).atl =
      y.atl * Real.exp (-1 / 7) + (dt.tss : ℝ) * (1 - Real.exp (-1 / 7)) := by
  show ATL.calculate y.atl dt = _
  unfold ATL.calculate calc_training_load
  norm_num

theorem calc_next_tsb (y : DailyStats) (dt : DailyTSS) :
    (DailyStats.calc_next y dt).tsb =
      (DailyStats.calc_next y dt).ctl - (DailyStats.calc_next y dt).atl := rfl

theorem rollingState_zero (init : DailyStats) (s : ℕ → DailyTSS) :
    rollingState init s 0 = DailyStats.calc_next init (s 0) := rfl

theorem rollingState_succ (init : DailyStats) (s : ℕ → DailyTSS) (i : ℕ) :
    rollingState init s (i + 1) =
      DailyStats.calc_next (rollingState init s i) (s (i + 1)) := rfl

theorem rollingState_tsb (init : DailyStats) (s : ℕ → DailyTSS) (i : ℕ) :
    (rollingState init s i).tsb =
      (rollingState init s i).ctl - (rollingState init s i).atl := by
  cases i with
  | zero => exact calc_next_tsb _ _
  | succ j => exact calc_next_tsb _ _

theorem rollingStream_tss_zero (sorted : List DailyTSS) (i : ℕ)
    (h : sorted.length ≤ i) : (rollingStream sorted i).tss = 0 := by
  unfold rollingStream
  rw [dif_neg (by omega)]

theorem rollingStream_tss_nonneg (sorted : List DailyTSS)
    (hnn : ∀ e ∈ sorted, 0 ≤ e.tss) (i : ℕ) :
    (0 : ℝ) ≤ ((rollingStream sorted i).tss : ℝ) := by
  unfold rollingStream
  split_ifs with h
  · exact_mod_cast hnn _ (List.get_mem sorted _ h)
  · norm_num

theorem rollingInit_none_ctl (sorted : List DailyTSS) :
    (rollingInit sorted none).ctl = 0 := rfl

theorem rollingInit_none_atl (sorted : List DailyTSS) :
    (rollingInit sorted none).atl = 0 := rfl

theorem one_sub_exp_nonneg (x : ℝ) (hx : x ≤ 0) : 0 ≤ 1 - Real.exp x := by
  have := Real.exp_le_one_iff.mpr hx
  linarith

theorem rollingState_nonneg (sorted : List DailyTSS)
    (hnn : ∀ e ∈ sorted, 0 ≤ e.tss) :
    ∀ i, 0 ≤ (rollingState (rollingInit sorted none) (rollingStream sorted) i).ctl ∧
      0 ≤ (rollingState (rollingInit sorted none) (rollingStream sorted) i).atl := by
  have h42 : (0 : ℝ) ≤ 1 - Real.exp (-1 / 42) := one_sub_exp_nonneg _ (by norm_num)
  have h7 : (0 : ℝ) ≤ 1 - Real.exp (-1 / 7) := one_sub_exp_nonneg _ (by norm_num)
  intro i
  induction i with
  | zero =>
    rw [rollingState_zero]
    constructor
    · rw [calc_next_ctl, rollingInit_none_ctl]
      have := mul_nonneg (rollingStream_tss_nonneg sorted hnn 0) h42
      linarith
    · rw [calc_next_atl, rollingInit_none_atl]
      have := mul_nonneg (rollingStream_tss_nonneg sorted hnn 0) h7
      linarith
  | succ j ih =>
    rw [rollingState_succ]
    constructor
    · rw [calc_next_ctl]
      have h1 := mul_nonneg ih.1 (Real.exp_pos (-1 / 42 : ℝ)).le
      have h2 := mul_nonneg (rollingStream_tss_nonneg sorted hnn (j + 1)) h42
      linarith
    · rw [calc_next_atl]
      have h1 := mul_nonneg ih.2 (Real.exp_pos (-1 / 7 : ℝ)).le
      have h2 := mul_nonneg (rollingStream_tss_nonneg sorted hnn (j + 1)) h7
      linarith

theorem range_map_getLastD {α : Type} (f : ℕ → α) (n : ℕ) (d : α) :
    ((List.range (n + 1)).map f).getLastD d = f n := by
  rw [List.range_succ, List.map_append, List.map_singleton]
  exact List.getLastD_concat _ _ _

theorem range_map_ne_nil {α : Type} (f : ℕ → α) (n : ℕ) :
    (List.range (n + 1)).map f ≠ [] := by
  simp [List.range_succ]

theorem exp_seventh_bounds :
    (1.15356 : ℝ) ≤ Real.exp (1 / 7) ∧ Real.exp (1 / 7) ≤ 1.15357 := by
  have hsum : (∑ m ∈ Finset.range 5, (1 / 7 : ℝ) ^ m / m.factorial) = 66473 / 57624 := by
    rw [Finset.sum_range_succ, Finset.sum_range_succ, Finset.sum_range_succ,
      Finset.sum_range_succ, Finset.sum_range_succ, Finset.sum_range_zero]
    norm_num [Nat.factorial]
  have h := Real.exp_bound (x := 1 / 7)
    (by rw [abs_of_nonneg] <;> norm_num) (n := 5) (by norm_num)
  rw [hsum, abs_of_nonneg (by norm_num : (0 : ℝ) ≤ 1 / 7)] at h
  have hb : ((1 : ℝ) / 7) ^ 5 * ((5 : ℕ).succ / ((5 : ℕ).factorial * (5 : ℕ))) =
      1 / 1680700 := by
    norm_num [Nat.factorial]
  rw [hb] at h
  rw [abs_sub_le_iff] at h
  constructor
  · linarith [h.2]
  · linarith [h.1]

theorem exp_neg_seventh_bounds :
    (0.86687 : ℝ) ≤ Real.exp (-1 / 7) ∧ Real.exp (-1 / 7) ≤ 0.86689 := by
  obtain ⟨hl, hu⟩ := exp_seventh_bounds
  have hmul : Real.exp (-1 / 7) * Real.exp (1 / 7) = 1 := by
    rw [← Real.exp_add]
    norm_num
  have hq0 : (0 : ℝ) < Real.exp (-1 / 7) := Real.exp_pos _
  constructor
  · have key : Real.exp (-1 / 7) * Real.exp (1 / 7) ≤ Real.exp (-1 / 7) * 1.15357 :=
      mul_le_mul_of_nonneg_left hu hq0.le
    rw [hmul] at key
    linarith
  · have key : Real.exp (-1 / 7) * 1.15356 ≤ Real.exp (-1 / 7) * Real.exp (1 / 7) :=
      mul_le_mul_of_nonneg_left hl hq0.le
    rw [hmul] at key
    linarith

/-- C3 (amended): from the synthetic zero state on a non-empty series of
non-negative daily TSS values, the produced series is non-empty and its
last entry satisfies `|CTL| ≤ 0.45·e^(1/42)` (≈ 0.461) and
`|ATL|, |TSB| ≤ 0.45·e^(1/7)` (≈ 0.519).  The bound `0.45·e^(1/7)`
genuinely exceeds 0.5, so the claimed threshold range 0.45–0.5 is too
small for ATL and TSB. -/
theorem calc_rolling_last_bounds (sorted : List DailyTSS) (out : List DailyStats)
    (hne : sorted ≠ []) (hnn : ∀ e ∈ sorted, 0 ≤ e.tss)
    (hrel : calcRollingRel sorted none out) :
    out ≠ [] ∧
    |(out.getLastD { date := 0, tss := 0, ctl := 0, atl := 0, tsb := 0 }).ctl| ≤
      0.45 * Real.exp (1 / 42) ∧
    |(out.getLastD { date := 0, tss := 0, ctl := 0, atl := 0, tsb := 0 }).atl| ≤
      0.45 * Real.exp (1 / 7) ∧
    |(out.getLastD { date := 0, tss := 0, ctl := 0, atl := 0, tsb := 0 }).tsb| ≤
      0.45 * Real.exp (1 / 7) := by
  unfold calcRollingRel at hrel
  rw [if_neg (by simp [List.isEmpty_iff, hne])] at hrel
  obtain ⟨m, hout, -, hstop⟩ := hrel
  subst hout
  unfold rollingKeep at hstop
  push_neg at hstop
  obtain ⟨hm, hctl, hatl, htsb⟩ := hstop
  have hmlen : sorted.length ≤ m := by omega
  have htz : (rollingStream sorted (m + 1)).tss = 0 :=
    rollingStream_tss_zero sorted (m + 1) (by omega)
  have hctl_next :
      (rollingState (rollingInit sorted none) (rollingStream sorted) (m + 1)).ctl =
        (rollingState (rollingInit sorted none) (rollingStream sorted) m).ctl *
          Real.exp (-1 / 42) := by
    rw [rollingState_succ, calc_next_ctl, htz]
    push_cast
    ring
  have hatl_next :
      (rollingState (rollingInit sorted none) (rollingStream sorted) (m + 1)).atl =
        (rollingState (rollingInit sorted none) (rollingStream sorted) m).atl *
          Real.exp (-1 / 7) := by
    rw [rollingState_succ, calc_next_atl, htz]
    push_cast
    ring
  have hnn' := rollingState_nonneg sorted hnn m
  have hmul42 : Real.exp (-1 / 42 : ℝ) * Real.exp (1 / 42) = 1 := by
    rw [← Real.exp_add]
    norm_num
  have hmul7 : Real.exp (-1 / 7 : ℝ) * Real.exp (1 / 7) = 1 := by
    rw [← Real.exp_add]
    norm_num
  have hctl_m :
      (rollingState (rollingInit sorted none) (rollingStream sorted) m).ctl ≤
        0.45 * Real.exp (1 / 42) := by
    rw [hctl_next] at hctl
    have hkey := mul_lt_mul_of_pos_right hctl (Real.exp_pos (1 / 42 : ℝ))
    calc (rollingState (rollingInit sorted none) (rollingStream sorted) m).ctl
        = (rollingState (rollingInit sorted none) (rollingStream sorted) m).ctl *
            (Real.exp (-1 / 42) * Real.exp (1 / 42)) := by rw [hmul42, mul_one]
      _ = (rollingState (rollingInit sorted none) (rollingStream sorted) m).ctl *
            Real.exp (-1 / 42) * Real.exp (1 / 42) := by ring
      _ ≤ 0.45 * Real.exp (1 / 42) := hkey.le
  have hatl_m :
      (rollingState (rollingInit sorted none) (rollingStream sorted) m).atl ≤
        0.45 * Real.exp (1 / 7) := by
    rw [hatl_next] at hatl
    have hkey := mul_lt_mul_of_pos_right hatl (Real.exp_pos (1 / 7 : ℝ))
    calc (rollingState (rollingInit sorted none) (rollingStream sorted) m).atl
        = (rollingState (rollingInit sorted none) (rollingStream sorted) m).atl *
            (Real.exp (-1 / 7) * Real.exp (1 / 7)) := by rw [hmul7, mul_one]
      _ = (rollingState (rollingInit sorted none) (rollingStream sorted) m).atl *
            Real.exp (-1 / 7) * Real.exp (1 / 7) := by ring
      _ ≤ 0.45 * Real.exp (1 / 7) := hkey.le
  have hEE : Real.exp (1 / 42 : ℝ) ≤ Real.exp (1 / 7) :=
    Real.exp_le_exp.mpr (by norm_num)
  have hE42 : (0 : ℝ) < Real.exp (1 / 42) := Real.exp_pos _
  refine ⟨range_map_ne_nil _ m, ?_⟩
  rw [range_map_getLastD]
  refine ⟨?_, ?_, ?_⟩
  · rw [abs_of_nonneg hnn'.1]
    exact hctl_m
  · rw [abs_of_nonneg hnn'.2]
    exact hatl_m
  · rw [rollingState_tsb]
    rw [abs_le]
    constructor
    · have h1 := hnn'.1
      have h2 := hatl_m
      nlinarith [Real.exp_pos (1 / 7 : ℝ)]
    · have h1 := hnn'.2
      have h2 := hctl_m
      nlinarith [Real.exp_pos (1 / 7 : ℝ)]

theorem rollingPoly_atl3_gt (q : ℝ) (h1 : 0.86687 ≤ q) (h2 : q ≤ 0.86689) :
    0.5 < (((1 - q) * q + 3 * (1 - q)) * q + (1 - q)) * q := by
  have hq0 : (0 : ℝ) ≤ q := by linarith
  have e2l : (0.86687 : ℝ) ^ 2 ≤ q ^ 2 := pow_le_pow_left (by norm_num) h1 2
  have e3u : q ^ 3 ≤ (0.86689 : ℝ) ^ 3 := pow_le_pow_left hq0 h2 3
  have e4u : q ^ 4 ≤ (0.86689 : ℝ) ^ 4 := pow_le_pow_left hq0 h2 4
  have expand : (((1 - q) * q + 3 * (1 - q)) * q + (1 - q)) * q =
      -q ^ 4 - 2 * q ^ 3 + 2 * q ^ 2 + q := by ring
  rw [expand]
  norm_num at e2l e3u e4u
  linarith

theorem rollingPoly_atl4 (q : ℝ) (h1 : 0.86687 ≤ q) (h2 : q ≤ 0.86689) :
    ((((1 - q) * q + 3 * (1 - q)) * q + (1 - q)) * q) * q < 0.45 ∧
    0 ≤ ((((1 - q) * q + 3 * (1 - q)) * q + (1 - q)) * q) * q := by
  have hq0 : (0 : ℝ) ≤ q := by linarith
  have e2l : (0.86687 : ℝ) ^ 2 ≤ q ^ 2 := pow_le_pow_left (by norm_num) h1 2
  have e2u : q ^ 2 ≤ (0.86689 : ℝ) ^ 2 := pow_le_pow_left hq0 h2 2
  have e3l : (0.86687 : ℝ) ^ 3 ≤ q ^ 3 := pow_le_pow_left (by norm_num) h1 3
  have e3u : q ^ 3 ≤ (0.86689 : ℝ) ^ 3 := pow_le_pow_left hq0 h2 3
  have e4l : (0.86687 : ℝ) ^ 4 ≤ q ^ 4 := pow_le_pow_left (by norm_num) h1 4
  have e4u : q ^ 4 ≤ (0.86689 : ℝ) ^ 4 := pow_le_pow_left hq0 h2 4
  have e5l : (0.86687 : ℝ) ^ 5 ≤ q ^ 5 := pow_le_pow_left (by norm_num) h1 5
  have e5u : q ^ 5 ≤ (0.86689 : ℝ) ^ 5 := pow_le_pow_left hq0 h2 5
  have expand : ((((1 - q) * q + 3 * (1 - q)) * q + (1 - q)) * q) * q =
      -q ^ 5 - 2 * q ^ 4 + 2 * q ^ 3 + q ^ 2 := by ring
  rw [expand]
  norm_num at e2l e2u e3l e3u e4l e4u e5l e5u
  constructor
  · linarith
  · linarith

theorem rollingPoly_ctl4 (c : ℝ) (h1 : 41 / 42 ≤ c) (h2 : c < 1) :
    ((((1 - c) * c + 3 * (1 - c)) * c + (1 - c)) * c) * c < 0.45 := by
  have hc0 : (0 : ℝ) < c := by linarith
  have hcsq : c ^ 2 ≤ 1 := by nlinarith
  have e1 : 1 - c ≤ 1 / 42 := by linarith
  have e2 : c ^ 2 + 3 * c + 1 ≤ 5 := by nlinarith
  have e2n : (0 : ℝ) ≤ c ^ 2 + 3 * c + 1 := by nlinarith
  have expand : ((((1 - c) * c + 3 * (1 - c)) * c + (1 - c)) * c) * c =
      ((1 - c) * (c ^ 2 + 3 * c + 1)) * c ^ 2 := by ring
  rw [expand]
  have p1 : (1 - c) * (c ^ 2 + 3 * c + 1) ≤ (1 / 42) * 5 :=
    mul_le_mul e1 e2 e2n (by norm_num)
  have p2 : ((1 - c) * (c ^ 2 + 3 * c + 1)) * c ^ 2 ≤ ((1 / 42) * 5) * 1 := by
    apply mul_le_mul p1 hcsq (sq_nonneg c) (by norm_num)
  linarith

/-- Counterexample to C3 as stated: the contiguous non-negative daily TSS
series `[(0,1), (1,3), (2,1)]`, rolled from the synthetic zero state,
produces a series whose last entry has `ATL ≈ 0.5022 > 0.5`, exceeding
every convergence threshold in the claimed range 0.45–0.5. -/
theorem calc_rolling_convergence_counterexample :
    List.Chain' (fun a b => b.date = a.date + 1)
      ([⟨0, 1⟩, ⟨1, 3⟩, ⟨2, 1⟩] : List DailyTSS) ∧
    calcRollingRel [⟨0, 1⟩, ⟨1, 3⟩, ⟨2, 1⟩] none
      ((List.range (3 + 1)).map
        (rollingState (rollingInit [⟨0, 1⟩, ⟨1, 3⟩, ⟨2, 1⟩] none)
          (rollingStream [⟨0, 1⟩, ⟨1, 3⟩, ⟨2, 1⟩]))) ∧
    0.5 < (((List.range (3 + 1)).map
        (rollingState (rollingInit [⟨0, 1⟩, ⟨1, 3⟩, ⟨2, 1⟩] none)
          (rollingStream [⟨0, 1⟩, ⟨1, 3⟩, ⟨2, 1⟩]))).getLastD
      { date := 0, tss := 0, ctl := 0, atl := 0, tsb := 0 }).atl := by
  obtain ⟨hql, hqu⟩ := exp_neg_seventh_bounds
  have hc1 : Real.exp (-1 / 42 : ℝ) < 1 := Real.exp_lt_one_iff.mpr (by norm_num)
  have hc42 : (41 / 42 : ℝ) ≤ Real.exp (-1 / 42 : ℝ) := by
    have := Real.add_one_le_exp (-1 / 42 : ℝ)
    linarith
  have ht0 : (rollingStream [⟨0, 1⟩, ⟨1, 3⟩, ⟨2, 1⟩] 0).tss = 1 := by decide
  have ht1 : (rollingStream [⟨0, 1⟩, ⟨1, 3⟩, ⟨2, 1⟩] (0 + 1)).tss = 3 := by decide
  have ht2 : (rollingStream [⟨0, 1⟩, ⟨1, 3⟩, ⟨2, 1⟩] (0 + 1 + 1)).tss = 1 := by decide
  have ht3 : (rollingStream [⟨0, 1⟩, ⟨1, 3⟩, ⟨2, 1⟩] (0 + 1 + 1 + 1)).tss = 0 := by
    decide
  have ht4 : (rollingStream [⟨0, 1⟩, ⟨1, 3⟩, ⟨2, 1⟩] (0 + 1 + 1 + 1 + 1)).tss = 0 := by
    decide
  have h0a : (rollingState (rollingInit [⟨0, 1⟩, ⟨1, 3⟩, ⟨2, 1⟩] none)
      (rollingStream [⟨0, 1⟩, ⟨1, 3⟩, ⟨2, 1⟩]) 0).atl = 1 - Real.exp (-1 / 7) := by
    rw [rollingState_zero, calc_next_atl, rollingInit_none_atl, ht0]
    push_cast
    ring
  have h1a : (rollingState (rollingInit [⟨0, 1⟩, ⟨1, 3⟩, ⟨2, 1⟩] none)
      (rollingStream [⟨0, 1⟩, ⟨1, 3⟩, ⟨2, 1⟩]) (0 + 1)).atl =
      (1 - Real.exp (-1 / 7)) * Real.exp (-1 / 7) + 3 * (1 - Real.exp (-1 / 7)) := by
    rw [rollingState_succ, calc_next_atl, h0a, ht1]
    push_cast
    ring
  have h2a : (rollingState (rollingInit [⟨0, 1⟩, ⟨1, 3⟩, ⟨2, 1⟩] none)
      (rollingStream [⟨0, 1⟩, ⟨1, 3⟩, ⟨2, 1⟩]) (0 + 1 + 1)).atl =
      ((1 - Real.exp (-1 / 7)) * Real.exp (-1 / 7) + 3 * (1 - Real.exp (-1 / 7))) *
        Real.exp (-1 / 7) + (1 - Real.exp (-1 / 7)) := by
    rw [rollingState_succ, calc_next_atl, h1a, ht2]
    push_cast
    ring
  have h3a : (rollingState (rollingInit [⟨0, 1⟩, ⟨1, 3⟩, ⟨2, 1⟩] none)
      (rollingStream [⟨0, 1⟩, ⟨1, 3⟩, ⟨2, 1⟩]) (0 + 1 + 1 + 1)).atl =
      (((1 - Real.exp (-1 / 7)) * Real.exp (-1 / 7) + 3 * (1 - Real.exp (-1 / 7))) *
        Real.exp (-1 / 7) + (1 - Real.exp (-1 / 7))) * Real.exp (-1 / 7) := by
    rw [rollingState_succ, calc_next_atl, h2a, ht3]
    push_cast
    ring
  have h4a : (rollingState (rollingInit [⟨0, 1⟩, ⟨1, 3⟩, ⟨2, 1⟩] none)
      (rollingStream [⟨0, 1⟩, ⟨1, 3⟩, ⟨2, 1⟩]) (0 + 1 + 1 + 1 + 1)).atl =
      ((((1 - Real.exp (-1 / 7)) * Real.exp (-1 / 7) + 3 * (1 - Real.exp (-1 / 7))) *
        Real.exp (-1 / 7) + (1 - Real.exp (-1 / 7))) * Real.exp (-1 / 7)) *
        Real.exp (-1 / 7) := by
    rw [rollingState_succ, calc_next_atl, h3a, ht4]
    push_cast
    ring
  have h0c : (rollingState (rollingInit [⟨0, 1⟩, ⟨1, 3⟩, ⟨2, 1⟩] none)
      (rollingStream [⟨0, 1⟩, ⟨1, 3⟩, ⟨2, 1⟩]) 0).ctl = 1 - Real.exp (-1 / 42) := by
    rw [rollingState_zero, calc_next_ctl, rollingInit_none_ctl, ht0]
    push_cast
    ring
  have h1c : (rollingState (rollingInit [⟨0, 1⟩, ⟨1, 3⟩, ⟨2, 1⟩] none)
      (rollingStream [⟨0, 1⟩, ⟨1, 3⟩, ⟨2, 1⟩]) (0 + 1)).ctl =
      (1 - Real.exp (-1 / 42)) * Real.exp (-1 / 42) + 3 * (1 - Real.exp (-1 / 42)) := by
    rw [rollingState_succ, calc_next_ctl, h0c, ht1]
    push_cast
    ring
  have h2c : (rollingState (rollingInit [⟨0, 1⟩, ⟨1, 3⟩, ⟨2, 1⟩] none)
      (rollingStream [⟨0, 1⟩, ⟨1, 3⟩, ⟨2, 1⟩]) (0 + 1 + 1)).ctl =
      ((1 - Real.exp (-1 / 42)) * Real.exp (-1 / 42) + 3 * (1 - Real.exp (-1 / 42))) *
        Real.exp (-1 / 42) + (1 - Real.exp (-1 / 42)) := by
    rw [rollingState_succ, calc_next_ctl, h1c, ht2]
    push_cast
    ring
  have h3c : (rollingState (rollingInit [⟨0, 1⟩, ⟨1, 3⟩, ⟨2, 1⟩] none)
      (rollingStream [⟨0, 1⟩, ⟨1, 3⟩, ⟨2, 1⟩]) (0 + 1 + 1 + 1)).ctl =
      (((1 - Real.exp (-1 / 42)) * Real.exp (-1 / 42) + 3 * (1 - Real.exp (-1 / 42))) *
        Real.exp (-1 / 42) + (1 - Real.exp (-1 / 42))) * Real.exp (-1 / 42) := by
    rw [rollingState_succ, calc_next_ctl, h2c, ht3]
    push_cast
    ring
  have h4c : (rollingState (rollingInit [⟨0, 1⟩, ⟨1, 3⟩, ⟨2, 1⟩] none)
      (rollingStream [⟨0, 1⟩, ⟨1, 3⟩, ⟨2, 1⟩]) (0 + 1 + 1 + 1 + 1)).ctl =
      ((((1 - Real.exp (-1 / 42)) * Real.exp (-1 / 42) + 3 * (1 - Real.exp (-1 / 42))) *
        Real.exp (-1 / 42) + (1 - Real.exp (-1 / 42))) * Real.exp (-1 / 42)) *
        Real.exp (-1 / 42) := by
    rw [rollingState_succ, calc_next_ctl, h3c, ht4]
    push_cast
    ring
  have h3A : (rollingState (rollingInit [⟨0, 1⟩, ⟨1, 3⟩, ⟨2, 1⟩] none)
      (rollingStream [⟨0, 1⟩, ⟨1, 3⟩, ⟨2, 1⟩]) 3).atl =
      (((1 - Real.exp (-1 / 7)) * Real.exp (-1 / 7) + 3 * (1 - Real.exp (-1 / 7))) *
        Real.exp (-1 / 7) + (1 - Real.exp (-1 / 7))) * Real.exp (-1 / 7) := h3a
  have h4A : (rollingState (rollingInit [⟨0, 1⟩, ⟨1, 3⟩, ⟨2, 1⟩] none)
      (rollingStream [⟨0, 1⟩, ⟨1, 3⟩, ⟨2, 1⟩]) (3 + 1)).atl =
      ((((1 - Real.exp (-1 / 7)) * Real.exp (-1 / 7) + 3 * (1 - Real.exp (-1 / 7))) *
        Real.exp (-1 / 7) + (1 - Real.exp (-1 / 7))) * Real.exp (-1 / 7)) *
        Real.exp (-1 / 7) := h4a
  have h4C : (rollingState (rollingInit [⟨0, 1⟩, ⟨1, 3⟩, ⟨2, 1⟩] none)
      (rollingStream [⟨0, 1⟩, ⟨1, 3⟩, ⟨2, 1⟩]) (3 + 1)).ctl =
      ((((1 - Real.exp (-1 / 42)) * Real.exp (-1 / 42) + 3 * (1 - Real.exp (-1 / 42))) *
        Real.exp (-1 / 42) + (1 - Real.exp (-1 / 42))) * Real.exp (-1 / 42)) *
        Real.exp (-1 / 42) := h4c
  refine ⟨List.chain'_cons.mpr ⟨by decide, List.chain'_cons.mpr
    ⟨by decide, List.chain'_singleton _⟩⟩, ?_, ?_⟩
  · unfold calcRollingRel
    rw [if_neg (by decide)]
    refine ⟨3, rfl, ?_, ?_⟩
    · intro i _
      unfold rollingKeep
      left
      have hlen : ([⟨0, 1⟩, ⟨1, 3⟩, ⟨2, 1⟩] : List DailyTSS).length = 3 := rfl
      omega
    · unfold rollingKeep
      push_neg
      have hlen : ([⟨0, 1⟩, ⟨1, 3⟩, ⟨2, 1⟩] : List DailyTSS).length = 3 := rfl
      refine ⟨by omega, ?_, ?_, ?_⟩
      · rw [h4C]
        exact rollingPoly_ctl4 _ hc42 hc1
      · rw [h4A]
        exact (rollingPoly_atl4 _ hql hqu).1
      · rw [rollingState_tsb, h4C, h4A]
        have ha := (rollingPoly_atl4 _ hql hqu).2
        have hc := rollingPoly_ctl4 (Real.exp (-1 / 42)) hc42 hc1
        linarith
  · rw [range_map_getLastD, h3A]
    exact rollingPoly_atl3_gt _ hql hqu

theorem zeroRun_ctl0 : (rollingState (rollingInit [⟨0, 0⟩] none)
    (rollingStream [⟨0, 0⟩]) 0).ctl = 0 := by
  rw [rollingState_zero, calc_next_ctl, rollingInit_none_ctl,
    show (rollingStream [⟨0, 0⟩] 0).tss = 0 from by decide]
  push_cast
  ring

theorem zeroRun_atl0 : (rollingState (rollingInit [⟨0, 0⟩] none)
    (rollingStream [⟨0, 0⟩]) 0).atl = 0 := by
  rw [rollingState_zero, calc_next_atl, rollingInit_none_atl,
    show (rollingStream [⟨0, 0⟩] 0).tss = 0 from by decide]
  push_cast
  ring

theorem zeroRun_ctl1 : (rollingState (rollingInit [⟨0, 0⟩] none)
    (rollingStream [⟨0, 0⟩]) (0 + 1)).ctl = 0 := by
  rw [rollingState_succ, calc_next_ctl, zeroRun_ctl0,
    show (rollingStream [⟨0, 0⟩] (0 + 1)).tss = 0 from by decide]
  push_cast
  ring

theorem zeroRun_atl1 : (rollingState (rollingInit [⟨0, 0⟩] none)
    (rollingStream [⟨0, 0⟩]) (0 + 1)).atl = 0 := by
  rw [rollingState_succ, calc_next_atl, zeroRun_atl0,
    show (rollingStream [⟨0, 0⟩] (0 + 1)).tss = 0 from by decide]
  push_cast
  ring

theorem zeroRun_ctl2 : (rollingState (rollingInit [⟨0, 0⟩] none)
    (rollingStream [⟨0, 0⟩]) (0 + 1 + 1)).ctl = 0 := by
  rw [rollingState_succ, calc_next_ctl, zeroRun_ctl1,
    show (rollingStream [⟨0, 0⟩] (0 + 1 + 1)).tss = 0 from by decide]
  push_cast
  ring

theorem zeroRun_atl2 : (rollingState (rollingInit [⟨0, 0⟩] none)
    (rollingStream [⟨0, 0⟩]) (0 + 1 + 1)).atl = 0 := by
  rw [rollingState_succ, calc_next_atl, zeroRun_atl1,
    show (rollingStream [⟨0, 0⟩] (0 + 1 + 1)).tss = 0 from by decide]
  push_cast
  ring

theorem zeroRun_rel : calcRollingRel [⟨0, 0⟩] none
    ((List.range (1 + 1)).map (rollingState (rollingInit [⟨0, 0⟩] none)
      (rollingStream [⟨0, 0⟩]))) := by
  unfold calcRollingRel
  rw [if_neg (by decide)]
  refine ⟨1, rfl, ?_, ?_⟩
  · intro i _
    unfold rollingKeep
    left
    have hlen : ([⟨0, 0⟩] : List DailyTSS).length = 1 := rfl
    omega
  · unfold rollingKeep
    push_neg
    have hlen : ([⟨0, 0⟩] : List DailyTSS).length = 1 := rfl
    have hc2 : (rollingState (rollingInit [⟨0, 0⟩] none)
        (rollingStream [⟨0, 0⟩]) (1 + 1)).ctl = 0 := zeroRun_ctl2
    have ha2 : (rollingState (rollingInit [⟨0, 0⟩] none)
        (rollingStream [⟨0, 0⟩]) (1 + 1)).atl = 0 := zeroRun_atl2
    refine ⟨by omega, ?_, ?_, ?_⟩
    · rw [hc2]; norm_num
    · rw [ha2]; norm_num
    · rw [rollingState_tsb, hc2, ha2]; norm_num

/-- Witness for the amended C3 on a single zero-TSS day. -/
theorem calc_rolling_last_bounds_witness :
    ((List.range (1 + 1)).map (rollingState (rollingInit [⟨0, 0⟩] none)
      (rollingStream [⟨0, 0⟩]))) ≠ [] ∧
    |(((List.range (1 + 1)).map (rollingState (rollingInit [⟨0, 0⟩] none)
      (rollingStream [⟨0, 0⟩]))).getLastD
        { date := 0, tss := 0, ctl := 0, atl := 0, tsb := 0 }).ctl| ≤
      0.45 * Real.exp (1 / 42) ∧
    |(((List.range (1 + 1)).map (rollingState (rollingInit [⟨0, 0⟩] none)
      (rollingStream [⟨0, 0⟩]))).getLastD
        { date := 0, tss := 0, ctl := 0, atl := 0, tsb := 0 }).atl| ≤
      0.45 * Real.exp (1 / 7) ∧
    |(((List.range (1 + 1)).map (rollingState (rollingInit [⟨0, 0⟩] none)
      (rollingStream [⟨0, 0⟩]))).getLastD
        { date := 0, tss := 0, ctl := 0, atl := 0, tsb := 0 }).tsb| ≤
      0.45 * Real.exp (1 / 7) :=
  calc_rolling_last_bounds [⟨0, 0⟩] _ (by decide) (by decide) zeroRun_rel

end ActivityAnalyser
